import Mathlib

/-!
Verification development for the swades-connect identity reconciliation and
synchronization engine.  The definitions below are shallow embeddings of the
TypeScript sources:

  * src/shared/storage.ts      (deduplicateById, upsertRecords, deleteRecordsById, ...)
  * src/background/index.ts    (upsertOpportunitiesWithNameMatching,
                                upsertActivitiesWithSummaryMatching)
  * src/content/idCache.ts     (normalizeOpportunityName, populateOpportunityIdCache,
                                setOpportunityId)
  * src/content/index.ts       (mapModelToDataType, sanitizeOdooValue,
                                extractMany2oneName, convertToActivity,
                                the create and web_save branch of handleRpcSignal)
  * src/content/pagination.ts  (the page loop of extractWithPagination)
  * src/shared/lock.ts         (acquireLock, releaseLock)

JavaScript record objects are modelled as ordered association lists of
string keys and dynamic values; JavaScript Map objects are modelled with the
same ordered association lists, since Map.set keeps the position of an
existing key and appends new keys at the end, exactly like property
assignment on plain objects.
-/

set_option maxHeartbeats 1000000

namespace SwadesConnect

/-- Dynamic JavaScript values as they occur in RPC payloads and in the synced
record objects: null, undefined, booleans, numbers, strings, arrays and plain
objects (ordered key-value lists). -/
inductive OVal where
  | null : OVal
  | undefined : OVal
  | bool : Bool → OVal
  | num : Int → OVal
  | str : String → OVal
  | arr : List OVal → OVal
  | obj : List (String × OVal) → OVal

/-- JavaScript String(x) conversion, as used by template literals and by
String(value[1]) in extractMany2oneName.  Array conversion joins the
elements with commas, rendering null and undefined elements as the empty
string; object conversion yields the standard object tag. -/
def jsString : OVal → String
  | .null => "null"
  | .undefined => "undefined"
  | .bool b => if b then "true" else "false"
  | .num n => toString n
  | .str s => s
  | .arr xs => String.intercalate "," (jsElems xs)
  | .obj _ => "[object Object]"
where
  /-- Stringify the elements of an array; null and undefined render empty. -/
  jsElems : List OVal → List String
  | [] => []
  | .null :: xs => "" :: jsElems xs
  | .undefined :: xs => "" :: jsElems xs
  | x :: xs => jsString x :: jsElems xs

/-- ASCII lower-casing of one character, the fragment of
String.prototype.toLowerCase the correlation keys exercise. -/
def toLowerChar (ch : Char) : Char :=
  if 65 ≤ ch.toNat ∧ ch.toNat ≤ 90 then Char.ofNat (ch.toNat + 32) else ch

/-- JavaScript String.prototype.toLowerCase. -/
def jsToLower (s : String) : String := String.mk (s.data.map toLowerChar)

/-- Whitespace test of String.prototype.trim (space, tab, line feed,
carriage return). -/
def isJsSpace (ch : Char) : Bool :=
  (ch = ' ') || (ch = Char.ofNat 9) || (ch = Char.ofNat 10) || (ch = Char.ofNat 13)

/-- Drop leading whitespace from a character list. -/
def trimLeftChars : List Char → List Char
  | [] => []
  | c :: cs => if isJsSpace c then trimLeftChars cs else c :: cs

/-- JavaScript String.prototype.trim: strip whitespace from both ends. -/
def jsTrim (s : String) : String :=
  String.mk ((trimLeftChars (trimLeftChars s.data.reverse).reverse))

/-- JavaScript truthiness of a dynamic value, used by guards such as
`if (id && name)` or `if (record.name)` in the sources. -/
def oTruthy : OVal → Bool
  | .null => false
  | .undefined => false
  | .bool b => b
  | .num n => !(n = 0)
  | .str s => !(s = "")
  | .arr _ => true
  | .obj _ => true

/-- The overwrite guard of the merge loops in storage.ts and
background/index.ts: `value !== Empty && value !== null && value !== undefined`
where Empty is the empty string.  Numbers (including 0), booleans, arrays and
objects always pass; null, undefined and the empty string do not. -/
def isNonEmptyValue : OVal → Bool
  | .null => false
  | .undefined => false
  | .str s => !(s = "")
  | .bool _ => true
  | .num _ => true
  | .arr _ => true
  | .obj _ => true

/-- JavaScript Map.set and object property assignment: replace the value of
an existing key in place, otherwise append the new binding at the end. -/
def mapSet {α : Type} (m : List (String × α)) (k : String) (v : α) : List (String × α) :=
  match m with
  | [] => [(k, v)]
  | (k₁, v₁) :: rest => if k₁ = k then (k, v) :: rest else (k₁, v₁) :: mapSet rest k v

/-- JavaScript Map.get and object property read: the value bound to the first
occurrence of the key, if any. -/
def mapGet {α : Type} (m : List (String × α)) (k : String) : Option α :=
  match m with
  | [] => none
  | (k₁, v₁) :: rest => if k₁ = k then some v₁ else mapGet rest k

/-- Keys of a map, in insertion order. -/
def mapKeys {α : Type} (m : List (String × α)) : List String := m.map Prod.fst

/-- Values of a map, in insertion order (Array.from of Map.values). -/
def mapValues {α : Type} (m : List (String × α)) : List α := m.map Prod.snd

/-- A stored record: the mandatory string id property plus the remaining
properties of the JavaScript object, in property order.  This models the
Contact, Opportunity and Activity records of shared/types.ts uniformly, the
way the generic storage layer treats them. -/
structure RecordData where
  id : String
  fields : List (String × OVal)

/-- Read a property of a record; absent properties read as undefined. -/
def RecordData.get (r : RecordData) (k : String) : OVal :=
  (mapGet r.fields k).getD .undefined

/-- Read a property that the TypeScript types declare as a string, as the
name and summary correlation fields are; a non-string value never matches. -/
def RecordData.getStr (r : RecordData) (k : String) : Option String :=
  match mapGet r.fields k with
  | some (.str s) => some s
  | _ => none

/-- One assignment of the merge loop: overwrite the property only if the
incoming value passes the non-empty test. -/
def applyEntry (fs : List (String × OVal)) (e : String × OVal) : List (String × OVal) :=
  if isNonEmptyValue e.2 then mapSet fs e.1 e.2 else fs

/-- The whole merge loop over Object.entries of the incoming record. -/
def applyEntries (fs es : List (String × OVal)) : List (String × OVal) :=
  es.foldl applyEntry fs

/-- Field-by-field merge from upsertRecords (storage.ts lines 149 to 156),
also used verbatim by the name and summary matching upserts in
background/index.ts: start from a spread copy of the existing record and
overwrite each property whose incoming value is neither the empty string nor
null nor undefined.  The id property is a string entry of the object and
follows the same rule, so a non-empty incoming id replaces the stored id. -/
def mergeRecord (ex inc : RecordData) : RecordData :=
  { id := if inc.id = "" then ex.id else inc.id
    fields := applyEntries ex.fields inc.fields }

/-- The Map of existing records keyed by id (storage.ts lines 134 to 137),
also deduplicateById builds exactly this map. -/
def buildMap (records : List RecordData) : List (String × RecordData) :=
  records.foldl (fun m r => mapSet m r.id r) []

/-- deduplicateById from storage.ts: last record wins per id, insertion
order of first occurrence kept (JavaScript Map semantics). -/
def deduplicateById (records : List RecordData) : List RecordData :=
  mapValues (buildMap records)

/-- saveData merges each collection as deduplicateById of existing records
followed by the new batch (storage.ts lines 42 to 44). -/
def saveDataMerge (existing new : List RecordData) : List RecordData :=
  deduplicateById (existing ++ new)

/-- Result shape of the upsert operations. -/
structure UpsertResult where
  records : List RecordData
  added : Nat
  updated : Nat

/-- One iteration of the upsert loop of upsertRecords (storage.ts lines 143
to 163) acting on the id-keyed map together with the two counters. -/
def upsertStep (st : List (String × RecordData) × Nat × Nat) (r : RecordData) :
    List (String × RecordData) × Nat × Nat :=
  match mapGet st.1 r.id with
  | some ex => (mapSet st.1 r.id (mergeRecord ex r), st.2.1, st.2.2 + 1)
  | none => (mapSet st.1 r.id r, st.2.1 + 1, st.2.2)

/-- upsertRecords from storage.ts: an empty batch returns counts 0 without
rewriting the collection; otherwise the stored collection is loaded into an
id-keyed map, every incoming record is merged or inserted, and the map
values are written back. -/
def upsertRecords (stored records : List RecordData) : UpsertResult :=
  if records.isEmpty then ⟨stored, 0, 0⟩
  else
    let st := records.foldl upsertStep (buildMap stored, 0, 0)
    ⟨mapValues st.1, st.2.1, st.2.2⟩

/-- deleteRecordsById from storage.ts: an empty id list returns 0 without
touching the collection; otherwise keep the records whose id is not in the
set and report how many were dropped. -/
def deleteRecordsById (stored : List RecordData) (ids : List String) :
    List RecordData × Nat :=
  if ids.isEmpty then (stored, 0)
  else
    let recordsToKeep := stored.filter (fun r => !(ids.contains r.id))
    (recordsToKeep, stored.length - recordsToKeep.length)

/-- deleteRecord from storage.ts: drop every record with the given id. -/
def deleteRecord (stored : List RecordData) (id : String) : List RecordData :=
  stored.filter (fun r => !(r.id = id))

/-- deleteAllRecords from storage.ts: the collection becomes empty. -/
def deleteAllRecords (_stored : List RecordData) : List RecordData := []

/-- Decimal digit test (the character class of the backslash-d regex atom). -/
def isDigitChar (ch : Char) : Bool :=
  48 ≤ ch.toNat && ch.toNat ≤ 57

/-- Character-list prefix test. -/
def listStartsWith : List Char → List Char → Bool
  | _, [] => true
  | [], _ :: _ => false
  | c :: cs, d :: ds => c = d && listStartsWith cs ds

/-- The regular expression test of the background upserts, opp_ digits or
act_ digits anchored at both ends: the id starts with the given entity tag
and the rest is one or more decimal digits. -/
def isRealId (tag s : String) : Bool :=
  listStartsWith s.data tag.data
    && !((s.data.drop tag.data.length).isEmpty)
    && (s.data.drop tag.data.length).all isDigitChar

/-- Replace the first record satisfying the predicate using the given update,
returning none when no record matches.  This models the findIndex followed by
an in-place element assignment used by the background upserts. -/
def updateFirstMatch (p : RecordData → Bool) (f : RecordData → RecordData) :
    List RecordData → Option (List RecordData)
  | [] => none
  | x :: xs =>
    if p x then some (f x :: xs)
    else (updateFirstMatch p f xs).map (fun l => x :: l)

/-- The correlation-key test of the background upserts:
`item.key && item.key.toLowerCase().trim() === target` where key is the
name of opportunities or the summary of activities (both string typed). -/
def keyMatches (key target : String) (item : RecordData) : Bool :=
  match item.getStr key with
  | some s => !(s = "") && (jsTrim (jsToLower s) = target)
  | none => false

/-- One iteration of the loops of upsertOpportunitiesWithNameMatching and
upsertActivitiesWithSummaryMatching in background/index.ts: first look the
incoming record up by exact id; failing that, when the incoming id is an
authoritative one and the correlation field is a non-empty string, look it
up by normalized key (this is the identifier upgrade); merge in place on a
hit, append otherwise, and keep the added and updated counters. -/
def upsertKeyStep (tag key : String) (st : List RecordData × Nat × Nat)
    (r : RecordData) : List RecordData × Nat × Nat :=
  match updateFirstMatch (fun item => item.id = r.id) (fun ex => mergeRecord ex r) st.1 with
  | some l => (l, st.2.1, st.2.2 + 1)
  | none =>
    let byKey :=
      if isRealId tag r.id then
        match r.getStr key with
        | some s =>
          if s = "" then none
          else updateFirstMatch (keyMatches key (jsTrim (jsToLower s)))
            (fun ex => mergeRecord ex r) st.1
        | none => none
      else none
    match byKey with
    | some l => (l, st.2.1, st.2.2 + 1)
    | none => (st.1 ++ [r], st.2.1 + 1, st.2.2)

/-- upsertOpportunitiesWithNameMatching from background/index.ts, as a pure
function of the stored opportunity collection. -/
def upsertOpportunitiesWithNameMatching (stored records : List RecordData) :
    UpsertResult :=
  let st := records.foldl (upsertKeyStep "opp_" "name") (stored, 0, 0)
  ⟨st.1, st.2.1, st.2.2⟩

/-- upsertActivitiesWithSummaryMatching from background/index.ts, as a pure
function of the stored activity collection. -/
def upsertActivitiesWithSummaryMatching (stored records : List RecordData) :
    UpsertResult :=
  let st := records.foldl (upsertKeyStep "act_" "summary") (stored, 0, 0)
  ⟨st.1, st.2.1, st.2.2⟩

/-- normalizeOpportunityName from content/idCache.ts: trim then lower-case. -/
def normalizeOpportunityName (name : String) : String := jsToLower (jsTrim name)

/-- A row of a web_search_read response as read by the id cache: the id
property as an optional number and the name property as an optional string
(absent properties read as undefined). -/
structure CacheRow where
  id : Option Int
  name : Option String

/-- The opportunity id cache: normalized name to numeric id, a JavaScript
Map in insertion order. -/
def OppIdCache : Type := List (String × Int)

/-- Membership test of the cache (Map.has). -/
def cacheHas (c : OppIdCache) (k : String) : Bool := (mapGet c k).isSome

/-- Cache read (lookupOpportunityId, without the surrounding normalize). -/
def cacheGet (c : OppIdCache) (k : String) : Option Int := mapGet c k

/-- One iteration of the populateOpportunityIdCache loop: when the row id
and name are both truthy and the normalized name is not yet cached, insert
it; otherwise leave the cache untouched. -/
def populateRow (c : OppIdCache) (row : CacheRow) : OppIdCache :=
  match row.id, row.name with
  | some i, some n =>
    if !(i = 0) && !(n = "") then
      let key := normalizeOpportunityName n
      if cacheHas c key then c else mapSet c key i
    else c
  | _, _ => c

/-- populateOpportunityIdCache from content/idCache.ts: for every row whose
id and name are both truthy, insert the normalized name only when the key is
not already present (first writer wins). -/
def populateOpportunityIdCache (c : OppIdCache) (rows : List CacheRow) : OppIdCache :=
  rows.foldl populateRow c

/-- setOpportunityId from content/idCache.ts: a single insert with the same
first-writer-wins rule. -/
def setOpportunityId (c : OppIdCache) (name : String) (i : Int) : OppIdCache :=
  let key := normalizeOpportunityName name
  if cacheHas c key then c else mapSet c key i

/-- The lock record stored by shared/lock.ts: owner id and acquisition
timestamp in milliseconds. -/
structure LockData where
  id : String
  timestamp : Nat
deriving DecidableEq

/-- LOCK_TIMEOUT_MS from shared/lock.ts. -/
def LOCK_TIMEOUT_MS : Nat := 30000

/-- acquireLock from shared/lock.ts as a function of the stored lock slot
and the current time: a lock younger than the timeout blocks acquisition;
otherwise the slot is overwritten with the caller id and the current time. -/
def acquireLock (st : Option LockData) (id : String) (now : Nat) :
    Bool × Option LockData :=
  match st with
  | some l =>
    if now - l.timestamp < LOCK_TIMEOUT_MS then (false, st)
    else (true, some ⟨id, now⟩)
  | none => (true, some ⟨id, now⟩)

/-- releaseLock from shared/lock.ts: the slot is cleared only when the
stored owner id equals the caller id; otherwise it is left untouched. -/
def releaseLock (st : Option LockData) (id : String) : Option LockData :=
  match st with
  | some l => if l.id = id then none else st
  | none => none

/-- The pager readout of getCurrentPageInfo in content/pagination.ts. -/
structure PageInfo where
  currentStart : Nat
  currentEnd : Nat
  total : Nat
deriving DecidableEq

/-- An abstract paginated view: the pager readout, the availability of an
enabled next control, and the page transition, all as functions of an
abstract page state. -/
structure PagedView where
  pageInfo : Nat → Option PageInfo
  hasNext : Nat → Bool
  next : Nat → Nat

/-- The while loop of extractWithPagination (content/pagination.ts lines 144
to 192), counting the number of page visits (extractor invocations).  The
fuel argument is maxPages minus the number of next clicks so far, which
bounds the loop exactly as the pageCount counter does in the source.  The
loop stops when a page range recurs, after visiting a page whose end offset
reaches the reported total, when no enabled next control exists, or when the
page ceiling is exhausted. -/
def pagLoop (v : PagedView) : Nat → Nat → List (Nat × Nat) → Nat → Nat
  | 0, _, _, visits => visits
  | fuel + 1, s, visited, visits =>
    match v.pageInfo s with
    | some p =>
      let rangeKey := (p.currentStart, p.currentEnd)
      if rangeKey ∈ visited then visits
      else
        let visited := rangeKey :: visited
        let visits := visits + 1
        if p.total ≤ p.currentEnd then visits
        else if v.hasNext s then pagLoop v fuel (v.next s) visited visits
        else visits
    | none =>
      let visits := visits + 1
      if v.hasNext s then pagLoop v fuel (v.next s) visited visits
      else visits

/-- extractWithPagination from content/pagination.ts, reduced to the number
of pages visited before one of the stopping conditions fires. -/
def extractWithPagination (v : PagedView) (start maxPages : Nat) : Nat :=
  pagLoop v maxPages start [] 0

/-- A simulated paginated source of n pages: page i of 1 to n reports the
range from (i-1)*50+1 to i*50 with total n*50; the next control is always
enabled and wraps from the last page back to the first, like the Odoo pager
described in the source comments. -/
def simPagedView (n : Nat) : PagedView where
  pageInfo i := if 1 ≤ i ∧ i ≤ n then some ⟨(i - 1) * 50 + 1, i * 50, n * 50⟩ else none
  hasNext _ := true
  next i := i % n + 1

/-- The data types of the extension. -/
inductive DataType where
  | contacts
  | opportunities
  | activities
deriving DecidableEq

/-- mapModelToDataType from content/index.ts: the activity scheduling wizard
model maps to the activities type together with the plain activity model. -/
def mapModelToDataType (model : String) : Option DataType :=
  if model = "res.partner" then some .contacts
  else if model = "crm.lead" then some .opportunities
  else if model = "mail.activity" then some .activities
  else if model = "mail.activity.schedule" then some .activities
  else none

/-- sanitizeOdooValue from content/index.ts: false, null and undefined
become the given default, every other value passes through. -/
def sanitizeOdooValue (v d : OVal) : OVal :=
  match v with
  | .bool false => d
  | .null => d
  | .undefined => d
  | x => x

/-- extractMany2oneName from content/index.ts.  A falsy link (false, null,
undefined) yields the empty string; a pair yields the stringified second
element; an object yields its truthy display_name or name property; a plain
string yields itself; everything else (in particular a raw numeric
identifier, or an array shorter than two whose typeof is still object but
which carries no label property) yields the empty string. -/
def extractMany2oneName (value : OVal) : String :=
  match value with
  | .bool false => ""
  | .null => ""
  | .undefined => ""
  | .arr xs =>
    if 2 ≤ xs.length then jsString (xs.getD 1 .undefined)
    else ""
  | .obj fs =>
    let dn := (mapGet fs "display_name").getD .undefined
    if oTruthy dn then jsString dn
    else
      let nm := (mapGet fs "name").getD .undefined
      if oTruthy nm then jsString nm
      else ""
  | .str s => s
  | .bool true => ""
  | .num _ => ""

/-- Read a property of a raw RPC record object; absent reads as undefined. -/
def propGet (fs : List (String × OVal)) (k : String) : OVal :=
  (mapGet fs k).getD .undefined

/-- Cast of a dynamic value to the string the TypeScript annotations promise.
Values of any other runtime type are mapped to the empty string; in the
browser such an ill-typed value would either throw inside the following
string method call, dropping the record in the convertRecord try catch, or
store an ill-typed field.  The claims never exercise these corners. -/
def asString (v : OVal) : String :=
  match v with
  | .str s => s
  | _ => ""

/-- Substring occurrence test on character lists. -/
def listHasInfix (sub : List Char) : List Char → Bool
  | [] => listStartsWith [] sub
  | c :: cs => listStartsWith (c :: cs) sub || listHasInfix sub cs

/-- JavaScript String.prototype.includes. -/
def strIncludes (s sub : String) : Bool :=
  listHasInfix sub.toList s.toList

/-- The JavaScript short-circuit a || b || fallback-string pattern used for
label properties: the first truthy of the two values, else the fallback. -/
def firstTruthy (a b : OVal) (fallback : String) : OVal :=
  if oTruthy a then a else if oTruthy b then b else .str fallback

/-- An activity record as produced by convertToActivity. -/
structure Activity where
  id : String
  type : String
  summary : String
  dueDate : String
  assignedTo : String
  status : String
deriving DecidableEq

/-- convertToActivity from content/index.ts (lines 851 to 891): the id is the
act_ tag followed by the stringified sanitized id property; the type name is
derived from the label of activity_type_id by substring tests, defaulting to
todo; the assignee comes from activity_user_id or user_id; summary falls back
from summary to note; status is done exactly when the state property is the
string done. -/
def convertToActivity (record : List (String × OVal)) : Activity :=
  let odooId := sanitizeOdooValue (propGet record "id") (.str "")
  let activityType := propGet record "activity_type_id"
  let typeLabel :=
    if oTruthy activityType then
      match activityType with
      | .arr xs => jsToLower (asString (xs.getD 1 .undefined))
      | .obj fs =>
        jsToLower (asString (firstTruthy (propGet fs "display_name") (propGet fs "name") ""))
      | _ => ""
    else ""
  let typeName :=
    if !(oTruthy activityType) then "todo"
    else if strIncludes typeLabel "call" then "call"
    else if strIncludes typeLabel "meeting" then "meeting"
    else if strIncludes typeLabel "email" then "email"
    else "todo"
  let activityUserId :=
    if oTruthy (propGet record "activity_user_id") then propGet record "activity_user_id"
    else propGet record "user_id"
  let assignedTo :=
    if oTruthy activityUserId then
      match activityUserId with
      | .arr xs => asString (xs.getD 1 .undefined)
      | .obj fs => asString (firstTruthy (propGet fs "display_name") (propGet fs "name") "")
      | _ => ""
    else ""
  { id := "act_" ++ jsString odooId
    type := typeName
    summary := asString (sanitizeOdooValue (propGet record "summary")
      (sanitizeOdooValue (propGet record "note") (.str "")))
    dueDate := asString (sanitizeOdooValue (propGet record "date_deadline") (.str ""))
    assignedTo := assignedTo
    status :=
      match propGet record "state" with
      | .str s => if s = "done" then "done" else "open"
      | _ => "open" }

/-- Object.keys of a dynamic value: property names of an object, index
strings of an array, empty otherwise. -/
def objKeys : OVal → List String
  | .obj fs => fs.map Prod.fst
  | .arr xs => (List.range xs.length).map (fun i => toString i)
  | _ => []

/-- The record assembly of the create and web_save case of handleRpcSignal
(content/index.ts lines 1059 to 1176) for an event whose data type is
activities.  When the response carries only an id, the record is
reconstructed by spreading the request field data over that id; when the
response carries full records (an array of objects or a single object), each
is converted directly; a bare numeric response yields no records (the
explicit early return of the source).  The opportunity id and activity id
cache side effects of the same branch are modelled separately by the id
cache functions. -/
def webSaveActivityRecords (args : List OVal) (result : OVal) : List Activity :=
  let firstResult :=
    match result with
    | .arr (x :: _) => if oTruthy x then x else result
    | _ => result
  let hasOnlyId := objKeys firstResult = ["id"]
  if hasOnlyId ∧ 2 ≤ args.length then
    let fieldData :=
      match args.getD 1 .undefined with
      | .obj g => g
      | _ => []
    match result with
    | .arr rs =>
      rs.filterMap (fun res =>
        match res with
        | .obj fs =>
          if (mapGet fs "id").isSome then
            some (convertToActivity
              (fieldData.foldl (fun m e => mapSet m e.1 e.2) [("id", propGet fs "id")]))
          else none
        | _ => none)
    | _ => []
  else
    match result with
    | .arr rs =>
      rs.filterMap (fun rec =>
        match rec with
        | .obj fs => some (convertToActivity fs)
        | .arr _ => some (convertToActivity [])
        | _ => none)
    | .obj fs => [convertToActivity fs]
    | _ => []

/-- The decision of handleRpcSignal for a create or web_save interception
event whose model maps to the activities data type: the converted records,
when any, are sent as an ODOO_RPC_UPSERT message (a direct upsert into the
store); the result is none exactly when no such message is emitted.  Models
with other data types follow the same branch with their own converters and
are outside this slice; an unknown model is dropped before the switch. -/
def handleActivityCreateWebSave (model : String) (args : List OVal)
    (result : OVal) : Option (List Activity) :=
  match mapModelToDataType model with
  | none => none
  | some dt =>
    if dt = DataType.activities then
      let records := webSaveActivityRecords args result
      if records.isEmpty then none else some records
    else none

/-! Auxiliary definitions used by the proofs below: specification-level
readings of the folds above, never used inside the embedded functions. -/

/-- The value of the last entry for the given key that passes the overwrite
test, if any: this is what a sequence of merge-loop assignments leaves at
that key. -/
def lastKeep (k : String) : List (String × OVal) → Option OVal
  | [] => none
  | e :: es =>
    match lastKeep k es with
    | some v => some v
    | none => if e.1 = k ∧ isNonEmptyValue e.2 then some e.2 else none

/-- The last kept value for a key across a list of incoming records. -/
def lastKeepRecs (k : String) : List RecordData → Option OVal
  | [] => none
  | r :: rs =>
    match lastKeepRecs k rs with
    | some v => some v
    | none => lastKeep k r.fields

/-- The last non-empty id across a list of incoming records. -/
def lastId : List RecordData → Option String
  | [] => none
  | r :: rs =>
    match lastId rs with
    | some i => some i
    | none => if r.id = "" then none else some r.id

/-- Folding the record merge over a batch. -/
def mergeFold (w : RecordData) (rs : List RecordData) : RecordData :=
  rs.foldl mergeRecord w

/-- One per-key step of the upsert loop: merge into the present record or
insert the incoming one. -/
def mstep (o : Option RecordData) (r : RecordData) : Option RecordData :=
  some (match o with
  | some ex => mergeRecord ex r
  | none => r)

/-- Folding the per-key step over a batch. -/
def optFold (v : Option RecordData) (rs : List RecordData) : Option RecordData :=
  rs.foldl mstep v

/-- The map component of the upsert loop, without the counters. -/
def upsertMapStep (m : List (String × RecordData)) (r : RecordData) :
    List (String × RecordData) :=
  match mapGet m r.id with
  | some ex => mapSet m r.id (mergeRecord ex r)
  | none => mapSet m r.id r

/-- Folding the map component over a batch. -/
def foldUpsert (m : List (String × RecordData)) (batch : List RecordData) :
    List (String × RecordData) :=
  batch.foldl upsertMapStep m

/-- The invariant of every id-keyed record map: keys are pairwise distinct
and every entry stores a record whose id is its key. -/
def goodMap (m : List (String × RecordData)) : Prop :=
  (mapKeys m).Nodup ∧ ∀ e ∈ m, (e.2).id = e.1

/-- Every property key of a record is distinct from the others: this is the
inherent shape of a JavaScript object. -/
def wfFields (r : RecordData) : Prop := (mapKeys r.fields).Nodup

/-- The ids of a record collection. -/
def idsOf (l : List RecordData) : List String := l.map RecordData.id

/-! Generic lemmas about the ordered map model. -/

theorem mapGet_mapSet {α : Type} (m : List (String × α)) (k k₂ : String) (v : α) :
    mapGet (mapSet m k v) k₂ = if k = k₂ then some v else mapGet m k₂ := by
  induction m with
  | nil =>
    by_cases h : k = k₂ <;> simp [mapSet, mapGet, h]
  | cons e rest ih =>
    obtain ⟨k₁, v₁⟩ := e
    by_cases h₁ : k₁ = k
    · subst h₁
      by_cases h₂ : k₁ = k₂ <;> simp [mapSet, mapGet, h₂]
    · by_cases h₂ : k₁ = k₂
      · subst h₂
        have hk : ¬ k = k₁ := fun h => h₁ h.symm
        simp [mapSet, mapGet, h₁, hk]
      · simp [mapSet, mapGet, h₁, h₂, ih]

theorem mem_mapKeys_iff {α : Type} (m : List (String × α)) (k : String) :
    k ∈ mapKeys m ↔ (mapGet m k).isSome := by
  induction m with
  | nil => simp [mapKeys, mapGet]
  | cons e rest ih =>
    obtain ⟨k₁, v₁⟩ := e
    by_cases h : k₁ = k
    · subst h; simp [mapKeys, mapGet]
    · have hne : ¬ k = k₁ := fun hh => h hh.symm
      simp only [mapKeys, List.map_cons, List.mem_cons, hne, false_or, mapGet,
        if_neg h]
      simpa [mapKeys] using ih

theorem mapKeys_mapSet {α : Type} (m : List (String × α)) (k : String) (v : α) :
    mapKeys (mapSet m k v) = if k ∈ mapKeys m then mapKeys m else mapKeys m ++ [k] := by
  induction m with
  | nil => simp [mapSet, mapKeys]
  | cons e rest ih =>
    obtain ⟨k₁, v₁⟩ := e
    by_cases h : k₁ = k
    · subst h; simp [mapSet, mapKeys]
    · have hne : ¬ k = k₁ := fun hh => h hh.symm
      simp only [mapSet, if_neg h, mapKeys, List.map_cons] at ih ⊢
      rw [ih]
      by_cases hmem : k ∈ List.map Prod.fst rest
      · simp [hmem, hne]
      · simp [hmem, hne]

theorem nodup_mapKeys_mapSet {α : Type} (m : List (String × α)) (k : String) (v : α)
    (h : (mapKeys m).Nodup) : (mapKeys (mapSet m k v)).Nodup := by
  rw [mapKeys_mapSet]
  by_cases hmem : k ∈ mapKeys m
  · simpa [hmem] using h
  · simp only [hmem, if_false]
    simpa [List.nodup_append] using ⟨h, hmem⟩

theorem mapSet_of_not_mem {α : Type} (m : List (String × α)) (k : String) (v : α)
    (h : ¬ k ∈ mapKeys m) : mapSet m k v = m ++ [(k, v)] := by
  induction m with
  | nil => simp [mapSet]
  | cons e rest ih =>
    obtain ⟨k₁, v₁⟩ := e
    simp only [mapKeys, List.map_cons, List.mem_cons] at h
    push_neg at h
    have h₁ : ¬ k₁ = k := fun hh => h.1 hh.symm
    simp [mapSet, h₁, ih (by simpa [mapKeys] using h.2)]

theorem mapSet_self {α : Type} (m : List (String × α)) (k : String) (v : α)
    (h : mapGet m k = some v) : mapSet m k v = m := by
  induction m with
  | nil => simp [mapGet] at h
  | cons e rest ih =>
    obtain ⟨k₁, v₁⟩ := e
    by_cases h₁ : k₁ = k
    · simp only [mapGet, if_pos h₁, Option.some.injEq] at h
      simp [mapSet, h₁, h]
    · simp only [mapGet, if_neg h₁] at h
      simp [mapSet, h₁, ih h]

theorem mem_mapSet {α : Type} (m : List (String × α)) (k : String) (v : α)
    (e : String × α) (h : e ∈ mapSet m k v) : e ∈ m ∨ e = (k, v) := by
  induction m with
  | nil =>
    simp only [mapSet, List.mem_singleton] at h
    right; exact h
  | cons e₁ rest ih =>
    obtain ⟨k₁, v₁⟩ := e₁
    by_cases h₁ : k₁ = k
    · rw [mapSet, if_pos h₁] at h
      rcases List.mem_cons.mp h with h₂ | h₂
      · right; exact h₂
      · left; exact List.mem_cons_of_mem _ h₂
    · rw [mapSet, if_neg h₁] at h
      rcases List.mem_cons.mp h with h₂ | h₂
      · left; exact h₂ ▸ List.mem_cons_self _ _
      · rcases ih h₂ with h₃ | h₃
        · left; exact List.mem_cons_of_mem _ h₃
        · right; exact h₃

theorem map_ext {α : Type} (m₁ m₂ : List (String × α))
    (hk : mapKeys m₁ = mapKeys m₂) (hn : (mapKeys m₁).Nodup)
    (hget : ∀ k, mapGet m₁ k = mapGet m₂ k) : m₁ = m₂ := by
  induction m₁ generalizing m₂ with
  | nil =>
    cases m₂ with
    | nil => rfl
    | cons e rest => simp [mapKeys] at hk
  | cons e rest ih =>
    obtain ⟨k₁, v₁⟩ := e
    cases m₂ with
    | nil => simp [mapKeys] at hk
    | cons f rest₂ =>
      obtain ⟨k₂, v₂⟩ := f
      simp only [mapKeys, List.map_cons, List.cons.injEq] at hk
      obtain ⟨hkey, htail⟩ := hk
      subst hkey
      have hv : v₁ = v₂ := by
        have := hget k₁
        simpa [mapGet] using this
      subst hv
      simp only [mapKeys, List.map_cons, List.nodup_cons] at hn
      have hnotin₁ : ¬ k₁ ∈ mapKeys rest := by simpa [mapKeys] using hn.1
      have hnotin₂ : ¬ k₁ ∈ mapKeys rest₂ := by
        simpa [mapKeys, ← htail] using hn.1
      have htl : rest = rest₂ := by
        refine ih rest₂ (by simpa [mapKeys] using htail) (by simpa [mapKeys] using hn.2) ?_
        intro k
        by_cases hk₁ : k = k₁
        · subst hk₁
          rw [(mem_mapKeys_iff rest k).not] at hnotin₁
          rw [(mem_mapKeys_iff rest₂ k).not] at hnotin₂
          simp only [Option.not_isSome_iff_eq_none] at hnotin₁ hnotin₂
          rw [hnotin₁, hnotin₂]
        · have hne : ¬ k₁ = k := fun hh => hk₁ hh.symm
          have := hget k
          simpa [mapGet, hne] using this
      rw [htl]

/-! Lemmas about the merge loop over object entries. -/

theorem applyEntries_cons (fs : List (String × OVal)) (e : String × OVal)
    (es : List (String × OVal)) :
    applyEntries fs (e :: es) = applyEntries (applyEntry fs e) es := by
  simp [applyEntries]

theorem mapGet_applyEntries (fs es : List (String × OVal)) (k : String) :
    mapGet (applyEntries fs es) k =
      match lastKeep k es with
      | some v => some v
      | none => mapGet fs k := by
  induction es generalizing fs with
  | nil => simp [applyEntries, lastKeep]
  | cons e es ih =>
    obtain ⟨k₁, v₁⟩ := e
    rw [applyEntries_cons, ih, lastKeep]
    cases hlk : lastKeep k es with
    | some v => simp
    | none =>
      simp only
      by_cases hkeep : isNonEmptyValue v₁
      · by_cases hk : k₁ = k
        · subst hk
          simp [applyEntry, hkeep, mapGet_mapSet]
        · simp [applyEntry, hkeep, mapGet_mapSet, hk]
      · simp [applyEntry, hkeep]

theorem mapKeys_applyEntries_extend (fs es : List (String × OVal)) :
    ∃ t, mapKeys (applyEntries fs es) = mapKeys fs ++ t := by
  induction es generalizing fs with
  | nil => exact ⟨[], by simp [applyEntries]⟩
  | cons e es ih =>
    rw [applyEntries_cons]
    obtain ⟨t, ht⟩ := ih (applyEntry fs e)
    by_cases hkeep : isNonEmptyValue e.2
    · have hstep : applyEntry fs e = mapSet fs e.1 e.2 := by simp [applyEntry, hkeep]
      by_cases hmem : e.1 ∈ mapKeys fs
      · refine ⟨t, ?_⟩
        rw [ht, hstep, mapKeys_mapSet, if_pos hmem]
      · refine ⟨e.1 :: t, ?_⟩
        rw [ht, hstep, mapKeys_mapSet, if_neg hmem]
        simp
    · have hstep : applyEntry fs e = fs := by simp [applyEntry, hkeep]
      exact ⟨t, by rw [ht, hstep]⟩

theorem mem_mapKeys_applyEntries (fs es : List (String × OVal)) (k : String)
    (h : k ∈ mapKeys fs) : k ∈ mapKeys (applyEntries fs es) := by
  obtain ⟨t, ht⟩ := mapKeys_applyEntries_extend fs es
  rw [ht]
  exact List.mem_append_left _ h

theorem mapKeys_applyEntries_of_present (fs es : List (String × OVal))
    (h : ∀ e ∈ es, isNonEmptyValue e.2 = true → e.1 ∈ mapKeys fs) :
    mapKeys (applyEntries fs es) = mapKeys fs := by
  induction es generalizing fs with
  | nil => simp [applyEntries]
  | cons e es ih =>
    rw [applyEntries_cons]
    by_cases hkeep : isNonEmptyValue e.2
    · have hmem : e.1 ∈ mapKeys fs := h e (List.mem_cons_self _ _) hkeep
      have hstep : applyEntry fs e = mapSet fs e.1 e.2 := by simp [applyEntry, hkeep]
      have hkeys : mapKeys (applyEntry fs e) = mapKeys fs := by
        rw [hstep, mapKeys_mapSet, if_pos hmem]
      rw [ih (applyEntry fs e) (fun f hf hkf => by
        rw [hkeys]; exact h f (List.mem_cons_of_mem _ hf) hkf), hkeys]
    · have hstep : applyEntry fs e = fs := by simp [applyEntry, hkeep]
      rw [hstep]
      exact ih fs (fun f hf hkf => h f (List.mem_cons_of_mem _ hf) hkf)

theorem mem_mapKeys_applyEntries_of_lastKeep (fs es : List (String × OVal))
    (k : String) (h : (lastKeep k es).isSome) :
    k ∈ mapKeys (applyEntries fs es) := by
  induction es generalizing fs with
  | nil => simp [lastKeep] at h
  | cons e es ih =>
    rw [applyEntries_cons]
    rw [lastKeep] at h
    cases hlk : lastKeep k es with
    | some v => exact ih (applyEntry fs e) (by simp [hlk])
    | none =>
      rw [hlk] at h
      simp only [Option.isSome] at h
      by_cases hc : e.1 = k ∧ isNonEmptyValue e.2
      · have hmem : k ∈ mapKeys (applyEntry fs e) := by
          have : applyEntry fs e = mapSet fs e.1 e.2 := by simp [applyEntry, hc.2]
          rw [this, mapKeys_mapSet]
          by_cases hfs : e.1 ∈ mapKeys fs
          · rw [if_pos hfs]; exact hc.1 ▸ hfs
          · rw [if_neg hfs]
            exact hc.1 ▸ List.mem_append_right _ (List.mem_singleton_self _)
        exact mem_mapKeys_applyEntries _ _ _ hmem
      · rw [if_neg hc] at h
        simp at h

theorem nodup_mapKeys_applyEntries (fs es : List (String × OVal))
    (h : (mapKeys fs).Nodup) : (mapKeys (applyEntries fs es)).Nodup := by
  induction es generalizing fs with
  | nil => simpa [applyEntries] using h
  | cons e es ih =>
    rw [applyEntries_cons]
    refine ih (applyEntry fs e) ?_
    by_cases hkeep : isNonEmptyValue e.2
    · have : applyEntry fs e = mapSet fs e.1 e.2 := by simp [applyEntry, hkeep]
      rw [this]
      exact nodup_mapKeys_mapSet _ _ _ h
    · simpa [applyEntry, hkeep] using h

theorem lastKeep_eq_of_nodup (es : List (String × OVal)) (k : String)
    (h : (mapKeys es).Nodup) :
    lastKeep k es =
      match mapGet es k with
      | some v => if isNonEmptyValue v then some v else none
      | none => none := by
  induction es with
  | nil => simp [lastKeep, mapGet]
  | cons e es ih =>
    obtain ⟨k₁, v₁⟩ := e
    simp only [mapKeys, List.map_cons, List.nodup_cons] at h
    have hrec := ih (by simpa [mapKeys] using h.2)
    by_cases hk : k₁ = k
    · subst hk
      have hnone : mapGet es k₁ = none := by
        have := (mem_mapKeys_iff es k₁).not.mp (by simpa [mapKeys] using h.1)
        simpa [Option.not_isSome_iff_eq_none] using this
      rw [lastKeep, hrec, hnone]
      by_cases hkeep : isNonEmptyValue v₁ <;> simp [mapGet, hkeep]
    · rw [lastKeep, hrec]
      have hcond : ¬ (k₁ = k ∧ isNonEmptyValue v₁) := fun hc => hk hc.1
      cases hget : mapGet es k with
      | some v =>
        by_cases hkv : isNonEmptyValue v <;> simp [mapGet, hk, hget, hkv]
      | none => simp [mapGet, hk, hget, hcond]

theorem lastKeep_isSome_of_mem (es : List (String × OVal)) (e : String × OVal)
    (hmem : e ∈ es) (hkeep : isNonEmptyValue e.2 = true) :
    (lastKeep e.1 es).isSome := by
  induction es with
  | nil => simp at hmem
  | cons f es ih =>
    rw [lastKeep]
    cases hlk : lastKeep e.1 es with
    | some v => simp
    | none =>
      rcases List.mem_cons.mp hmem with hef | hef
      · subst hef
        simp [hkeep]
      · have := ih hef
        rw [hlk] at this
        simp at this

/-! Lemmas about the record merge and its folds. -/

theorem mapGet_mergeRecord (ex inc : RecordData) (k : String) :
    mapGet (mergeRecord ex inc).fields k =
      match lastKeep k inc.fields with
      | some v => some v
      | none => mapGet ex.fields k :=
  mapGet_applyEntries ex.fields inc.fields k

theorem mergeRecord_id (ex inc : RecordData) :
    (mergeRecord ex inc).id = if inc.id = "" then ex.id else inc.id := rfl

theorem mergeFold_nil (w : RecordData) : mergeFold w [] = w := rfl

theorem mergeFold_cons (w r : RecordData) (rs : List RecordData) :
    mergeFold w (r :: rs) = mergeFold (mergeRecord w r) rs := rfl

theorem mapGet_mergeFold (w : RecordData) (rs : List RecordData) (k : String) :
    mapGet (mergeFold w rs).fields k =
      match lastKeepRecs k rs with
      | some v => some v
      | none => mapGet w.fields k := by
  induction rs generalizing w with
  | nil => simp [mergeFold, lastKeepRecs]
  | cons r rs ih =>
    rw [mergeFold_cons, ih, lastKeepRecs]
    cases hlk : lastKeepRecs k rs with
    | some v => simp
    | none =>
      simp only
      rw [mapGet_mergeRecord]

theorem mergeFold_id (w : RecordData) (rs : List RecordData) :
    (mergeFold w rs).id =
      match lastId rs with
      | some i => i
      | none => w.id := by
  induction rs generalizing w with
  | nil => simp [mergeFold, lastId]
  | cons r rs ih =>
    rw [mergeFold_cons, ih, lastId]
    cases hli : lastId rs with
    | some i => simp
    | none =>
      simp only
      by_cases hid : r.id = "" <;> simp [mergeRecord, hid]

theorem mapKeys_mergeFold_extend (w : RecordData) (rs : List RecordData) :
    ∃ t, mapKeys (mergeFold w rs).fields = mapKeys w.fields ++ t := by
  induction rs generalizing w with
  | nil => exact ⟨[], by simp [mergeFold]⟩
  | cons r rs ih =>
    rw [mergeFold_cons]
    obtain ⟨t, ht⟩ := ih (mergeRecord w r)
    obtain ⟨u, hu⟩ := mapKeys_applyEntries_extend w.fields r.fields
    refine ⟨u ++ t, ?_⟩
    rw [ht]
    have : mapKeys (mergeRecord w r).fields = mapKeys w.fields ++ u := hu
    rw [this, List.append_assoc]

theorem mapKeys_mergeFold_of_present (w : RecordData) (rs : List RecordData)
    (h : ∀ r ∈ rs, ∀ e ∈ r.fields, isNonEmptyValue e.2 = true → e.1 ∈ mapKeys w.fields) :
    mapKeys (mergeFold w rs).fields = mapKeys w.fields := by
  induction rs generalizing w with
  | nil => simp [mergeFold]
  | cons r rs ih =>
    have hk : mapKeys (mergeRecord w r).fields = mapKeys w.fields :=
      mapKeys_applyEntries_of_present w.fields r.fields
        (h r (List.mem_cons_self _ _))
    rw [mergeFold_cons, ih (mergeRecord w r) (fun r₂ h₂ e he hke => by
      rw [hk]; exact h r₂ (List.mem_cons_of_mem _ h₂) e he hke), hk]

theorem mem_mapKeys_of_lastKeep (fs : List (String × OVal)) (k : String)
    (h : (lastKeep k fs).isSome) : k ∈ mapKeys fs := by
  induction fs with
  | nil => simp [lastKeep] at h
  | cons f fs ih =>
    rw [lastKeep] at h
    cases hlk : lastKeep k fs with
    | some v =>
      have := ih (by simp [hlk])
      simp only [mapKeys, List.map_cons, List.mem_cons]
      right
      simpa [mapKeys] using this
    | none =>
      rw [hlk] at h
      by_cases hc : f.1 = k ∧ isNonEmptyValue f.2
      · simp only [mapKeys, List.map_cons, List.mem_cons]
        left
        exact hc.1.symm
      · rw [if_neg hc] at h
        simp at h

theorem lastKeepRecs_isSome_of_mem (rs : List RecordData) (r : RecordData)
    (k : String) (hr : r ∈ rs) (h : (lastKeep k r.fields).isSome) :
    (lastKeepRecs k rs).isSome := by
  induction rs with
  | nil => simp at hr
  | cons f rs ih =>
    rw [lastKeepRecs]
    cases hlk : lastKeepRecs k rs with
    | some v => simp
    | none =>
      simp only
      rcases List.mem_cons.mp hr with hrf | hrf
      · subst hrf; exact h
      · have := ih hrf
        rw [hlk] at this
        simp at this

theorem mem_mapKeys_mergeFold_of_lastKeepRecs (w : RecordData)
    (rs : List RecordData) (k : String) (h : (lastKeepRecs k rs).isSome) :
    k ∈ mapKeys (mergeFold w rs).fields := by
  induction rs generalizing w with
  | nil => simp [lastKeepRecs] at h
  | cons r rs ih =>
    rw [lastKeepRecs] at h
    cases hlk : lastKeepRecs k rs with
    | some v =>
      rw [mergeFold_cons]
      exact ih (mergeRecord w r) (by simp [hlk])
    | none =>
      rw [hlk] at h
      simp only at h
      have hmem : k ∈ mapKeys (mergeRecord w r).fields :=
        mem_mapKeys_applyEntries_of_lastKeep w.fields r.fields k h
      rw [mergeFold_cons]
      obtain ⟨t, ht⟩ := mapKeys_mergeFold_extend (mergeRecord w r) rs
      rw [ht]
      exact List.mem_append_left _ hmem

theorem nodup_mapKeys_mergeFold (w : RecordData) (rs : List RecordData)
    (h : wfFields w) : wfFields (mergeFold w rs) := by
  induction rs generalizing w with
  | nil => simpa [mergeFold] using h
  | cons r rs ih =>
    rw [mergeFold_cons]
    exact ih (mergeRecord w r) (nodup_mapKeys_applyEntries w.fields r.fields h)

theorem optFold_nil (v : Option RecordData) : optFold v [] = v := rfl

theorem optFold_cons (v : Option RecordData) (r : RecordData) (rs : List RecordData) :
    optFold v (r :: rs) = optFold (mstep v r) rs := rfl

theorem optFold_some (w : RecordData) (rs : List RecordData) :
    optFold (some w) rs = some (mergeFold w rs) := by
  induction rs generalizing w with
  | nil => rfl
  | cons r rs ih =>
    rw [optFold_cons, mergeFold_cons]
    exact ih (mergeRecord w r)

theorem optFold_isSome (v : Option RecordData) (rs : List RecordData)
    (h : rs ≠ []) : (optFold v rs).isSome := by
  cases rs with
  | nil => exact absurd rfl h
  | cons r rs =>
    rw [optFold_cons]
    cases v with
    | some ex =>
      rw [show mstep (some ex) r = some (mergeRecord ex r) from rfl, optFold_some]
      simp
    | none =>
      rw [show mstep none r = some r from rfl, optFold_some]
      simp

theorem optFold_wf (v : Option RecordData) (rs : List RecordData) (w : RecordData)
    (hw : optFold v rs = some w) (hnf : ∀ r ∈ rs, wfFields r)
    (hv : ∀ ex, v = some ex → wfFields ex) : wfFields w := by
  cases v with
  | some ex =>
    rw [optFold_some] at hw
    obtain rfl : mergeFold ex rs = w := Option.some.inj hw
    exact nodup_mapKeys_mergeFold ex rs (hv ex rfl)
  | none =>
    cases rs with
    | nil => simp [optFold] at hw
    | cons r rs =>
      rw [optFold_cons, show mstep none r = some r from rfl, optFold_some] at hw
      obtain rfl : mergeFold r rs = w := Option.some.inj hw
      exact nodup_mapKeys_mergeFold r rs (hnf r (List.mem_cons_self _ _))

theorem optFold_spec (v : Option RecordData) (rs : List RecordData) (w : RecordData)
    (hw : optFold v rs = some w) (hnf : ∀ r ∈ rs, wfFields r) :
    (∀ k val, lastKeepRecs k rs = some val →
      mapGet w.fields k = some val ∧ k ∈ mapKeys w.fields)
    ∧ (∀ i, lastId rs = some i → w.id = i) := by
  cases v with
  | some ex =>
    rw [optFold_some] at hw
    obtain rfl : mergeFold ex rs = w := Option.some.inj hw
    constructor
    · intro k val hlk
      refine ⟨?_, mem_mapKeys_mergeFold_of_lastKeepRecs ex rs k (by simp [hlk])⟩
      rw [mapGet_mergeFold, hlk]
    · intro i hi
      rw [mergeFold_id, hi]
  | none =>
    cases rs with
    | nil => simp [optFold] at hw
    | cons r rs =>
      rw [optFold_cons, show mstep none r = some r from rfl, optFold_some] at hw
      obtain rfl : mergeFold r rs = w := Option.some.inj hw
      constructor
      · intro k val hlk
        rw [lastKeepRecs] at hlk
        cases hlk₂ : lastKeepRecs k rs with
        | some v₂ =>
          rw [hlk₂] at hlk
          obtain rfl : v₂ = val := Option.some.inj hlk
          refine ⟨?_, mem_mapKeys_mergeFold_of_lastKeepRecs r rs k (by simp [hlk₂])⟩
          rw [mapGet_mergeFold, hlk₂]
        | none =>
          rw [hlk₂] at hlk
          simp only at hlk
          constructor
          · rw [mapGet_mergeFold, hlk₂]
            simp only
            have hwf := hnf r (List.mem_cons_self _ _)
            have hch := lastKeep_eq_of_nodup r.fields k hwf
            rw [hch] at hlk
            cases hget : mapGet r.fields k with
            | none => rw [hget] at hlk; simp at hlk
            | some v₀ =>
              rw [hget] at hlk
              simp only [] at hlk
              by_cases hkv : isNonEmptyValue v₀
              · rw [if_pos hkv] at hlk
                obtain rfl : v₀ = val := Option.some.inj hlk
                rfl
              · rw [if_neg hkv] at hlk
                simp at hlk
          · have hk : k ∈ mapKeys r.fields :=
              mem_mapKeys_of_lastKeep r.fields k (by simp [hlk])
            obtain ⟨t, ht⟩ := mapKeys_mergeFold_extend r rs
            rw [ht]
            exact List.mem_append_left _ hk
      · intro i hi
        rw [lastId] at hi
        cases hli : lastId rs with
        | some j =>
          rw [hli] at hi
          obtain rfl : j = i := Option.some.inj hi
          rw [mergeFold_id, hli]
        | none =>
          rw [hli] at hi
          by_cases hid : r.id = ""
          · rw [if_pos hid] at hi; simp at hi
          · rw [if_neg hid] at hi
            obtain rfl : r.id = i := Option.some.inj hi
            rw [mergeFold_id, hli]

theorem mergeFold_self (w : RecordData) (rs : List RecordData)
    (hnf : ∀ r ∈ rs, wfFields r) (hwf : wfFields w)
    (hlk : ∀ k val, lastKeepRecs k rs = some val →
      mapGet w.fields k = some val ∧ k ∈ mapKeys w.fields)
    (hid : ∀ i, lastId rs = some i → w.id = i) :
    mergeFold w rs = w := by
  have hpres : ∀ r ∈ rs, ∀ e ∈ r.fields, isNonEmptyValue e.2 = true →
      e.1 ∈ mapKeys w.fields := by
    intro r hr e he hke
    have h₁ : (lastKeep e.1 r.fields).isSome := lastKeep_isSome_of_mem r.fields e he hke
    have h₂ : (lastKeepRecs e.1 rs).isSome := lastKeepRecs_isSome_of_mem rs r e.1 hr h₁
    obtain ⟨val, hval⟩ := Option.isSome_iff_exists.mp h₂
    exact (hlk e.1 val hval).2
  have hkeys : mapKeys (mergeFold w rs).fields = mapKeys w.fields :=
    mapKeys_mergeFold_of_present w rs hpres
  have hfields : (mergeFold w rs).fields = w.fields := by
    refine map_ext _ _ hkeys ?_ ?_
    · rw [hkeys]; exact hwf
    · intro k
      rw [mapGet_mergeFold]
      cases hv : lastKeepRecs k rs with
      | none => rfl
      | some val =>
        simp only
        exact ((hlk k val hv).1).symm
  have hidval : (mergeFold w rs).id = w.id := by
    rw [mergeFold_id]
    cases hv : lastId rs with
    | none => rfl
    | some i =>
      simp only
      exact (hid i hv).symm
  have hsplit : mergeFold w rs = ⟨(mergeFold w rs).id, (mergeFold w rs).fields⟩ := rfl
  rw [hsplit, hidval, hfields]

theorem optFold_idem (v : Option RecordData) (rs : List RecordData)
    (hnf : ∀ r ∈ rs, wfFields r) (hv : ∀ ex, v = some ex → wfFields ex) :
    optFold (optFold v rs) rs = optFold v rs := by
  cases hrs : rs with
  | nil => rfl
  | cons r rs₂ =>
    rw [← hrs]
    have hne : rs ≠ [] := by rw [hrs]; simp
    obtain ⟨w, hw⟩ := Option.isSome_iff_exists.mp (optFold_isSome v rs hne)
    rw [hw, optFold_some]
    have hwwf : wfFields w := optFold_wf v rs w hw hnf hv
    have hspec := optFold_spec v rs w hw hnf
    rw [mergeFold_self w rs hnf hwwf hspec.1 hspec.2]

/-! Lemmas about the id-keyed upsert map. -/

theorem mapGet_mem {α : Type} (m : List (String × α)) (k : String) (v : α)
    (h : mapGet m k = some v) : (k, v) ∈ m := by
  induction m with
  | nil => simp [mapGet] at h
  | cons e rest ih =>
    obtain ⟨k₁, v₁⟩ := e
    by_cases h₁ : k₁ = k
    · rw [mapGet, if_pos h₁] at h
      obtain rfl : v₁ = v := Option.some.inj h
      subst h₁
      exact List.mem_cons_self _ _
    · rw [mapGet, if_neg h₁] at h
      exact List.mem_cons_of_mem _ (ih h)

theorem upsertStep_fst (st : List (String × RecordData) × Nat × Nat)
    (r : RecordData) : (upsertStep st r).1 = upsertMapStep st.1 r := by
  unfold upsertStep upsertMapStep
  cases mapGet st.1 r.id <;> rfl

theorem foldUpsert_cons (m : List (String × RecordData)) (r : RecordData)
    (batch : List RecordData) :
    foldUpsert m (r :: batch) = foldUpsert (upsertMapStep m r) batch := rfl

theorem upsertStep_eq_found (m : List (String × RecordData)) (a u : Nat)
    (r ex : RecordData) (hget : mapGet m r.id = some ex) :
    upsertStep (m, a, u) r = (mapSet m r.id (mergeRecord ex r), a, u + 1) := by
  unfold upsertStep
  rw [hget]

theorem upsertStep_eq_missing (m : List (String × RecordData)) (a u : Nat)
    (r : RecordData) (hget : mapGet m r.id = none) :
    upsertStep (m, a, u) r = (mapSet m r.id r, a + 1, u) := by
  unfold upsertStep
  rw [hget]

theorem upsertMapStep_eq_found (m : List (String × RecordData)) (r ex : RecordData)
    (hget : mapGet m r.id = some ex) :
    upsertMapStep m r = mapSet m r.id (mergeRecord ex r) := by
  unfold upsertMapStep
  rw [hget]

theorem upsertMapStep_eq_missing (m : List (String × RecordData)) (r : RecordData)
    (hget : mapGet m r.id = none) :
    upsertMapStep m r = mapSet m r.id r := by
  unfold upsertMapStep
  rw [hget]

theorem foldl_upsertStep_fst (batch : List RecordData)
    (m : List (String × RecordData)) (a u : Nat) :
    (batch.foldl upsertStep (m, a, u)).1 = foldUpsert m batch := by
  induction batch generalizing m a u with
  | nil => rfl
  | cons r batch ih =>
    rw [List.foldl_cons, foldUpsert_cons]
    cases hget : mapGet m r.id with
    | some ex =>
      rw [upsertStep_eq_found m a u r ex hget, upsertMapStep_eq_found m r ex hget]
      exact ih _ _ _
    | none =>
      rw [upsertStep_eq_missing m a u r hget, upsertMapStep_eq_missing m r hget]
      exact ih _ _ _

theorem foldl_upsertStep_counts (batch : List RecordData)
    (m : List (String × RecordData)) (a u : Nat) :
    (batch.foldl upsertStep (m, a, u)).2.1 + (batch.foldl upsertStep (m, a, u)).2.2
      = a + u + batch.length := by
  induction batch generalizing m a u with
  | nil => rfl
  | cons r batch ih =>
    rw [List.foldl_cons]
    cases hget : mapGet m r.id with
    | some ex =>
      rw [upsertStep_eq_found m a u r ex hget, ih]
      simp [Nat.add_assoc, Nat.add_comm, Nat.add_left_comm]
    | none =>
      rw [upsertStep_eq_missing m a u r hget, ih]
      simp [Nat.add_assoc, Nat.add_comm, Nat.add_left_comm]

theorem foldl_upsertStep_counts_shift (batch : List RecordData)
    (m : List (String × RecordData)) (a u : Nat) :
    (batch.foldl upsertStep (m, a, u)).2.1 = a + (batch.foldl upsertStep (m, 0, 0)).2.1
    ∧ (batch.foldl upsertStep (m, a, u)).2.2 = u + (batch.foldl upsertStep (m, 0, 0)).2.2 := by
  induction batch generalizing m a u with
  | nil => simp [List.foldl_nil]
  | cons r batch ih =>
    rw [List.foldl_cons, List.foldl_cons]
    cases hget : mapGet m r.id with
    | some ex =>
      rw [upsertStep_eq_found m a u r ex hget, upsertStep_eq_found m 0 0 r ex hget]
      obtain ⟨ha, hu⟩ := ih (mapSet m r.id (mergeRecord ex r)) a (u + 1)
      obtain ⟨ha0, hu0⟩ := ih (mapSet m r.id (mergeRecord ex r)) 0 1
      refine ⟨?_, ?_⟩
      · rw [ha, ha0]
        omega
      · rw [hu, hu0]
        omega
    | none =>
      rw [upsertStep_eq_missing m a u r hget, upsertStep_eq_missing m 0 0 r hget]
      obtain ⟨ha, hu⟩ := ih (mapSet m r.id r) (a + 1) u
      obtain ⟨ha0, hu0⟩ := ih (mapSet m r.id r) 1 0
      refine ⟨?_, ?_⟩
      · rw [ha, ha0]
        omega
      · rw [hu, hu0]
        omega

theorem goodMap_mapSet_record (m : List (String × RecordData)) (k : String)
    (r : RecordData) (h : goodMap m) (hr : r.id = k) : goodMap (mapSet m k r) := by
  refine ⟨nodup_mapKeys_mapSet m k r h.1, ?_⟩
  intro e he
  rcases mem_mapSet m k r e he with hm | hm
  · exact h.2 e hm
  · rw [hm]; exact hr

theorem goodMap_upsertMapStep (m : List (String × RecordData)) (r : RecordData)
    (h : goodMap m) : goodMap (upsertMapStep m r) := by
  unfold upsertMapStep
  cases hget : mapGet m r.id with
  | some ex =>
    have hexid : ex.id = r.id := h.2 (r.id, ex) (mapGet_mem m r.id ex hget)
    refine goodMap_mapSet_record m r.id (mergeRecord ex r) h ?_
    rw [mergeRecord_id]
    by_cases hid : r.id = ""
    · rw [if_pos hid, hexid]
    · rw [if_neg hid]
  | none => exact goodMap_mapSet_record m r.id r h rfl

theorem goodMap_foldUpsert (m : List (String × RecordData))
    (batch : List RecordData) (h : goodMap m) : goodMap (foldUpsert m batch) := by
  induction batch generalizing m with
  | nil => exact h
  | cons r batch ih =>
    rw [foldUpsert_cons]
    exact ih (upsertMapStep m r) (goodMap_upsertMapStep m r h)

theorem goodMap_buildMap_aux (l : List RecordData)
    (acc : List (String × RecordData)) (h : goodMap acc) :
    goodMap (l.foldl (fun m r => mapSet m r.id r) acc) := by
  induction l generalizing acc with
  | nil => exact h
  | cons r l ih =>
    rw [List.foldl_cons]
    exact ih (mapSet acc r.id r) (goodMap_mapSet_record acc r.id r h rfl)

theorem goodMap_buildMap (l : List RecordData) : goodMap (buildMap l) :=
  goodMap_buildMap_aux l [] ⟨List.nodup_nil, by intro e he; simp at he⟩

theorem mem_buildMap_aux (l : List RecordData) (acc : List (String × RecordData))
    (e : String × RecordData)
    (h : e ∈ l.foldl (fun m r => mapSet m r.id r) acc) :
    e ∈ acc ∨ e.2 ∈ l := by
  induction l generalizing acc with
  | nil => left; exact h
  | cons r l ih =>
    rw [List.foldl_cons] at h
    rcases ih (mapSet acc r.id r) h with hm | hm
    · rcases mem_mapSet acc r.id r e hm with hm₂ | hm₂
      · left; exact hm₂
      · right
        rw [hm₂]
        exact List.mem_cons_self _ _
    · right; exact List.mem_cons_of_mem _ hm

theorem mem_buildMap (l : List RecordData) (e : String × RecordData)
    (h : e ∈ buildMap l) : e.2 ∈ l := by
  rcases mem_buildMap_aux l [] e h with hm | hm
  · simp at hm
  · exact hm

theorem mapKeys_append {α : Type} (a b : List (String × α)) :
    mapKeys (a ++ b) = mapKeys a ++ mapKeys b := by
  simp [mapKeys]

theorem buildMap_mapValues_aux (m : List (String × RecordData))
    (acc : List (String × RecordData)) (hg : goodMap m)
    (hdisj : ∀ k ∈ mapKeys m, ¬ k ∈ mapKeys acc) :
    (mapValues m).foldl (fun m₂ r => mapSet m₂ r.id r) acc = acc ++ m := by
  induction m generalizing acc with
  | nil => simp [mapValues]
  | cons e rest ih =>
    obtain ⟨k, r⟩ := e
    have hrid : r.id = k := hg.2 (k, r) (List.mem_cons_self _ _)
    have hknotin : ¬ k ∈ mapKeys acc :=
      hdisj k (by simp [mapKeys])
    have hstep : mapSet acc r.id r = acc ++ [(k, r)] := by
      rw [hrid]
      exact mapSet_of_not_mem acc k r hknotin
    rw [show mapValues ((k, r) :: rest) = r :: mapValues rest from rfl,
      List.foldl_cons, hstep]
    have hgrest : goodMap rest := by
      constructor
      · have := hg.1
        simp only [mapKeys, List.map_cons, List.nodup_cons] at this
        simpa [mapKeys] using this.2
      · intro f hf
        exact hg.2 f (List.mem_cons_of_mem _ hf)
    have hne : ¬ k ∈ mapKeys rest := by
      have := hg.1
      simp only [mapKeys, List.map_cons, List.nodup_cons] at this
      simpa [mapKeys] using this.1
    rw [ih (acc ++ [(k, r)]) hgrest (fun k₂ hk₂ => by
      rw [mapKeys_append]
      intro hmem
      rcases List.mem_append.mp hmem with hm | hm
      · exact hdisj k₂ (by simp [mapKeys]; right; simpa [mapKeys] using hk₂) hm
      · simp only [mapKeys, List.map_cons, List.map_nil, List.mem_singleton] at hm
        rw [hm] at hk₂
        exact hne hk₂)]
    simp

theorem buildMap_mapValues (m : List (String × RecordData)) (hg : goodMap m) :
    buildMap (mapValues m) = m := by
  have := buildMap_mapValues_aux m [] hg (fun k _ => by simp [mapKeys])
  simpa [buildMap] using this

theorem mapGet_upsertMapStep (m : List (String × RecordData)) (r : RecordData)
    (k : String) :
    mapGet (upsertMapStep m r) k =
      if r.id = k then mstep (mapGet m r.id) r else mapGet m k := by
  unfold upsertMapStep
  cases hget : mapGet m r.id with
  | some ex =>
    rw [mapGet_mapSet]
    by_cases hk : r.id = k <;> simp [hk, mstep]
  | none =>
    rw [mapGet_mapSet]
    by_cases hk : r.id = k <;> simp [hk, mstep]

theorem mapGet_foldUpsert (m : List (String × RecordData))
    (batch : List RecordData) (k : String) :
    mapGet (foldUpsert m batch) k
      = optFold (mapGet m k) (batch.filter (fun r => r.id = k)) := by
  induction batch generalizing m with
  | nil => rfl
  | cons r batch ih =>
    rw [foldUpsert_cons, ih]
    by_cases hk : r.id = k
    · rw [List.filter_cons_of_pos (by simpa using hk), optFold_cons]
      have : mapGet (upsertMapStep m r) k = mstep (mapGet m k) r := by
        rw [mapGet_upsertMapStep, if_pos hk, hk]
      rw [this]
    · rw [List.filter_cons_of_neg (by simpa using hk)]
      have : mapGet (upsertMapStep m r) k = mapGet m k := by
        rw [mapGet_upsertMapStep, if_neg hk]
      rw [this]

theorem mem_mapKeys_upsertMapStep_self (m : List (String × RecordData))
    (r : RecordData) : r.id ∈ mapKeys (upsertMapStep m r) := by
  unfold upsertMapStep
  cases hget : mapGet m r.id with
  | some ex =>
    rw [mapKeys_mapSet]
    have hmem : r.id ∈ mapKeys m := (mem_mapKeys_iff m r.id).mpr (by simp [hget])
    rw [if_pos hmem]
    exact hmem
  | none =>
    rw [mapKeys_mapSet]
    by_cases hmem : r.id ∈ mapKeys m
    · rw [if_pos hmem]; exact hmem
    · rw [if_neg hmem]
      exact List.mem_append_right _ (List.mem_singleton_self _)

theorem mapKeys_upsertMapStep_extend (m : List (String × RecordData))
    (r : RecordData) :
    ∃ t, mapKeys (upsertMapStep m r) = mapKeys m ++ t := by
  unfold upsertMapStep
  cases hget : mapGet m r.id with
  | some ex =>
    have hmem : r.id ∈ mapKeys m := (mem_mapKeys_iff m r.id).mpr (by simp [hget])
    exact ⟨[], by rw [mapKeys_mapSet, if_pos hmem, List.append_nil]⟩
  | none =>
    by_cases hmem : r.id ∈ mapKeys m
    · exact ⟨[], by rw [mapKeys_mapSet, if_pos hmem, List.append_nil]⟩
    · exact ⟨[r.id], by rw [mapKeys_mapSet, if_neg hmem]⟩

theorem mapKeys_foldUpsert_extend (m : List (String × RecordData))
    (batch : List RecordData) :
    ∃ t, mapKeys (foldUpsert m batch) = mapKeys m ++ t := by
  induction batch generalizing m with
  | nil => exact ⟨[], by simp [foldUpsert]⟩
  | cons r batch ih =>
    rw [foldUpsert_cons]
    obtain ⟨t, ht⟩ := ih (upsertMapStep m r)
    obtain ⟨u, hu⟩ := mapKeys_upsertMapStep_extend m r
    exact ⟨u ++ t, by rw [ht, hu, List.append_assoc]⟩

theorem mem_mapKeys_foldUpsert_of_mem_batch (m : List (String × RecordData))
    (batch : List RecordData) (r : RecordData) (h : r ∈ batch) :
    r.id ∈ mapKeys (foldUpsert m batch) := by
  induction batch generalizing m with
  | nil => simp at h
  | cons f batch ih =>
    rw [foldUpsert_cons]
    rcases List.mem_cons.mp h with hrf | hrf
    · subst hrf
      obtain ⟨t, ht⟩ := mapKeys_foldUpsert_extend (upsertMapStep m r) batch
      rw [ht]
      exact List.mem_append_left _ (mem_mapKeys_upsertMapStep_self m r)
    · exact ih (upsertMapStep m f) hrf

theorem mapKeys_foldUpsert_of_present (m : List (String × RecordData))
    (batch : List RecordData) (h : ∀ r ∈ batch, r.id ∈ mapKeys m) :
    mapKeys (foldUpsert m batch) = mapKeys m := by
  induction batch generalizing m with
  | nil => rfl
  | cons r batch ih =>
    rw [foldUpsert_cons]
    have hmem : r.id ∈ mapKeys m := h r (List.mem_cons_self _ _)
    have hkeys : mapKeys (upsertMapStep m r) = mapKeys m := by
      unfold upsertMapStep
      cases hget : mapGet m r.id with
      | some ex => rw [mapKeys_mapSet, if_pos hmem]
      | none =>
        exact absurd ((mem_mapKeys_iff m r.id).mp hmem) (by simp [hget])
    rw [ih (upsertMapStep m r) (fun f hf => by
      rw [hkeys]; exact h f (List.mem_cons_of_mem _ hf)), hkeys]

theorem upsertRecords_records_eq (stored batch : List RecordData)
    (h : ¬ batch = []) :
    (upsertRecords stored batch).records
      = mapValues (foldUpsert (buildMap stored) batch) := by
  unfold upsertRecords
  rw [if_neg (by simpa using h)]
  simp only
  rw [foldl_upsertStep_fst]

theorem foldUpsert_self (m : List (String × RecordData)) (batch : List RecordData)
    (hg : goodMap m) (hbase : ∀ k ex, mapGet m k = some ex →
      ∃ v₀, optFold v₀ (batch.filter (fun r => r.id = k)) = some ex
        ∧ ∀ ex₂, v₀ = some ex₂ → wfFields ex₂)
    (hpresent : ∀ r ∈ batch, r.id ∈ mapKeys m)
    (hb : ∀ r ∈ batch, wfFields r) :
    foldUpsert m batch = m := by
  refine map_ext _ _ ?_ ?_ ?_
  · exact mapKeys_foldUpsert_of_present m batch hpresent
  · rw [mapKeys_foldUpsert_of_present m batch hpresent]
    exact hg.1
  · intro k
    rw [mapGet_foldUpsert]
    cases hget : mapGet m k with
    | none =>
      have hempty : batch.filter (fun r => r.id = k) = [] := by
        rw [List.filter_eq_nil_iff]
        intro r hr
        simp only [decide_eq_true_eq]
        intro hrk
        have := hpresent r hr
        rw [hrk, mem_mapKeys_iff, hget] at this
        simp at this
      rw [hempty, optFold_nil]
    | some ex =>
      obtain ⟨v₀, hv₀, hwf₀⟩ := hbase k ex hget
      have hfil : ∀ r ∈ batch.filter (fun r => r.id = k), wfFields r := by
        intro r hr
        exact hb r (List.mem_of_mem_filter hr)
      have := optFold_idem v₀ (batch.filter (fun r => r.id = k)) hfil hwf₀
      rw [hv₀] at this
      rw [this]

/-! Claim C4: upsert idempotence. -/

/-- C4: for every entity type and every batch of records (each a well-formed
JavaScript object, so with pairwise distinct property keys), calling
upsertRecords twice in a row with the identical batch leaves the stored
record collection in the same state as calling it once. -/
theorem upsertRecords_idempotent (stored batch : List RecordData)
    (hs : ∀ r ∈ stored, wfFields r) (hb : ∀ r ∈ batch, wfFields r) :
    (upsertRecords (upsertRecords stored batch).records batch).records
      = (upsertRecords stored batch).records := by
  by_cases hbatch : batch = []
  · subst hbatch
    rfl
  · rw [upsertRecords_records_eq _ batch hbatch,
      upsertRecords_records_eq stored batch hbatch,
      buildMap_mapValues _ (goodMap_foldUpsert _ _ (goodMap_buildMap stored))]
    congr 1
    apply foldUpsert_self (foldUpsert (buildMap stored) batch) batch
      (goodMap_foldUpsert _ _ (goodMap_buildMap stored))
    · intro k ex hget
      refine ⟨mapGet (buildMap stored) k, ?_, ?_⟩
      · rw [← mapGet_foldUpsert]
        exact hget
      · intro ex₂ hex₂
        exact hs ex₂ (mem_buildMap stored (k, ex₂) (mapGet_mem _ k ex₂ hex₂))
    · intro r hr
      exact mem_mapKeys_foldUpsert_of_mem_batch _ batch r hr
    · exact hb

/-- Witness for C4 at a concrete store and batch, including a batch record
that repeats an id and one that carries empty and null values. -/
theorem upsertRecords_idempotent_witness :
    (∀ r ∈ [RecordData.mk "a" [("x", OVal.str "1")]], wfFields r)
    ∧ (upsertRecords (upsertRecords
        [RecordData.mk "a" [("x", OVal.str "1")]]
        [RecordData.mk "a" [("x", OVal.str ""), ("z", OVal.num 0)],
         RecordData.mk "c" [("w", OVal.null)],
         RecordData.mk "a" [("x", OVal.str "2")]]).records
        [RecordData.mk "a" [("x", OVal.str ""), ("z", OVal.num 0)],
         RecordData.mk "c" [("w", OVal.null)],
         RecordData.mk "a" [("x", OVal.str "2")]]).records
      = (upsertRecords
        [RecordData.mk "a" [("x", OVal.str "1")]]
        [RecordData.mk "a" [("x", OVal.str ""), ("z", OVal.num 0)],
         RecordData.mk "c" [("w", OVal.null)],
         RecordData.mk "a" [("x", OVal.str "2")]]).records := by
  refine ⟨?_, upsertRecords_idempotent _ _ ?_ ?_⟩
  · intro r hr
    simp only [List.mem_singleton] at hr
    subst hr
    unfold wfFields
    decide
  · intro r hr
    simp only [List.mem_singleton] at hr
    subst hr
    unfold wfFields
    decide
  · intro r hr
    simp only [List.mem_cons, List.not_mem_nil, or_false] at hr
    rcases hr with hr | hr | hr <;> (subst hr; unfold wfFields; decide)

/-! Lemmas characterizing upsertRecords against a well-formed store. -/

theorem mapGet_pair_of_not_mem (stored : List RecordData) (k : String)
    (h : ∀ t ∈ stored, ¬ t.id = k) :
    mapGet (stored.map (fun t => (t.id, t))) k = none := by
  induction stored with
  | nil => rfl
  | cons t rest ih =>
    rw [List.map_cons, mapGet, if_neg (h t (List.mem_cons_self _ _))]
    exact ih (fun f hf => h f (List.mem_cons_of_mem _ hf))

theorem mapGet_pair_of_mem (stored : List RecordData) (ex : RecordData)
    (hn : (idsOf stored).Nodup) (hex : ex ∈ stored) :
    mapGet (stored.map (fun t => (t.id, t))) ex.id = some ex := by
  induction stored with
  | nil => simp at hex
  | cons t rest ih =>
    simp only [idsOf, List.map_cons, List.nodup_cons] at hn
    rcases List.mem_cons.mp hex with hext | hext
    · subst hext
      rw [List.map_cons, mapGet, if_pos rfl]
    · have hne : ¬ t.id = ex.id := by
        intro hcontra
        exact hn.1 (hcontra ▸ List.mem_map_of_mem RecordData.id hext)
      rw [List.map_cons, mapGet, if_neg hne]
      exact ih (by simpa [idsOf] using hn.2) hext

theorem mapValues_map_pair (stored : List RecordData) :
    mapValues (stored.map (fun t => (t.id, t))) = stored := by
  induction stored with
  | nil => rfl
  | cons t rest ih =>
    rw [List.map_cons]
    rw [show mapValues ((t.id, t) :: rest.map (fun s => (s.id, s)))
      = t :: mapValues (rest.map (fun s => (s.id, s))) from rfl]
    rw [ih]

theorem buildMap_of_nodup (stored : List RecordData)
    (hn : (idsOf stored).Nodup) :
    buildMap stored = stored.map (fun t => (t.id, t)) := by
  have hg : goodMap (stored.map (fun t => (t.id, t))) := by
    constructor
    · simpa [mapKeys, idsOf, List.map_map, Function.comp] using hn
    · intro e he
      simp only [List.mem_map] at he
      obtain ⟨t, _, rfl⟩ := he
      rfl
  calc buildMap stored
      = buildMap (mapValues (stored.map (fun t => (t.id, t)))) := by
        rw [mapValues_map_pair]
    _ = stored.map (fun t => (t.id, t)) := buildMap_mapValues _ hg

theorem mapValues_mapSet_pair (stored : List RecordData) (k : String)
    (w : RecordData) (hn : (idsOf stored).Nodup) (hk : k ∈ idsOf stored) :
    mapValues (mapSet (stored.map (fun t => (t.id, t))) k w)
      = stored.map (fun t => if t.id = k then w else t) := by
  induction stored with
  | nil => simp [idsOf] at hk
  | cons t rest ih =>
    simp only [idsOf, List.map_cons, List.nodup_cons] at hn
    by_cases ht : t.id = k
    · rw [List.map_cons, mapSet, if_pos ht]
      have hrest : rest.map (fun s => if s.id = k then w else s) = rest := by
        have hcongr : ∀ s ∈ rest, (if s.id = k then w else s) = s := by
          intro s hs
          rw [if_neg ?_]
          intro hcontra
          exact hn.1 (ht ▸ hcontra ▸ List.mem_map_of_mem RecordData.id hs)
        calc rest.map (fun s => if s.id = k then w else s)
            = rest.map id := List.map_congr_left hcongr
          _ = rest := List.map_id rest
      rw [List.map_cons, if_pos ht, hrest]
      rw [show mapValues ((k, w) :: rest.map (fun t => (t.id, t)))
        = w :: mapValues (rest.map (fun t => (t.id, t))) from rfl]
      rw [mapValues_map_pair]
    · have hkrest : k ∈ idsOf rest := by
        simp only [idsOf, List.map_cons, List.mem_cons] at hk
        rcases hk with hkk | hkk
        · exact absurd hkk.symm ht
        · simpa [idsOf] using hkk
      rw [List.map_cons, mapSet, if_neg ht, List.map_cons, if_neg ht]
      rw [show mapValues ((t.id, t) :: mapSet (rest.map (fun s => (s.id, s))) k w)
        = t :: mapValues (mapSet (rest.map (fun s => (s.id, s))) k w) from rfl]
      rw [ih (by simpa [idsOf] using hn.2) hkrest]

theorem upsertRecords_single_insert (stored : List RecordData) (r : RecordData)
    (hn : (idsOf stored).Nodup) (hno : ∀ t ∈ stored, ¬ t.id = r.id) :
    upsertRecords stored [r] = ⟨stored ++ [r], 1, 0⟩ := by
  unfold upsertRecords
  rw [if_neg (by simp)]
  simp only [List.foldl_cons, List.foldl_nil]
  rw [buildMap_of_nodup stored hn]
  rw [upsertStep_eq_missing _ 0 0 r (mapGet_pair_of_not_mem stored r.id hno)]
  simp only
  rw [mapSet_of_not_mem _ r.id r (by
    intro hmem
    simp only [mapKeys, List.map_map] at hmem
    obtain ⟨t, ht, hid⟩ := List.mem_map.mp hmem
    exact hno t ht hid)]
  rw [show mapValues ((stored.map (fun t => (t.id, t))) ++ [(r.id, r)])
    = mapValues (stored.map (fun t => (t.id, t))) ++ [r] from by simp [mapValues]]
  rw [mapValues_map_pair]

theorem upsertRecords_single_merge (stored : List RecordData) (r ex : RecordData)
    (hn : (idsOf stored).Nodup) (hex : ex ∈ stored) (hid : ex.id = r.id) :
    upsertRecords stored [r]
      = ⟨stored.map (fun t => if t.id = r.id then mergeRecord t r else t), 0, 1⟩ := by
  unfold upsertRecords
  rw [if_neg (by simp)]
  simp only [List.foldl_cons, List.foldl_nil]
  rw [buildMap_of_nodup stored hn]
  rw [upsertStep_eq_found _ 0 0 r ex (by rw [← hid]; exact mapGet_pair_of_mem stored ex hn hex)]
  simp only
  rw [mapValues_mapSet_pair stored r.id (mergeRecord ex r) hn
    (hid ▸ List.mem_map_of_mem RecordData.id hex)]
  have hcongr : ∀ t ∈ stored,
      (if t.id = r.id then mergeRecord ex r else t)
        = (if t.id = r.id then mergeRecord t r else t) := by
    intro t ht
    by_cases htid : t.id = r.id
    · rw [if_pos htid, if_pos htid]
      have : t = ex := List.inj_on_of_nodup_map (by simpa [idsOf] using hn) ht hex
        (by rw [htid, hid])
      rw [this]
    · rw [if_neg htid, if_neg htid]
  rw [List.map_congr_left hcongr]

theorem upsertRecords_counts (stored batch : List RecordData) :
    (upsertRecords stored batch).added + (upsertRecords stored batch).updated
      = batch.length := by
  unfold upsertRecords
  by_cases h : batch.isEmpty
  · rw [if_pos h]
    have : batch = [] := by
      cases batch with
      | nil => rfl
      | cons r rest => simp [List.isEmpty] at h
    rw [this]
    rfl
  · rw [if_neg h]
    simp only
    have := foldl_upsertStep_counts batch (buildMap stored) 0 0
    simpa using this

theorem upsertRecords_eq_of_ne (stored batch : List RecordData)
    (h : ¬ batch = []) :
    upsertRecords stored batch
      = ⟨mapValues (batch.foldl upsertStep (buildMap stored, 0, 0)).1,
         (batch.foldl upsertStep (buildMap stored, 0, 0)).2.1,
         (batch.foldl upsertStep (buildMap stored, 0, 0)).2.2⟩ := by
  unfold upsertRecords
  rw [if_neg (by simpa using h)]

theorem upsertRecords_single (stored : List RecordData) (r : RecordData) :
    upsertRecords stored [r]
      = ⟨mapValues (upsertMapStep (buildMap stored) r),
         (upsertStep (buildMap stored, 0, 0) r).2.1,
         (upsertStep (buildMap stored, 0, 0) r).2.2⟩ := by
  rw [upsertRecords_eq_of_ne stored [r] (by simp)]
  simp only [List.foldl_cons, List.foldl_nil]
  rw [upsertStep_fst]

theorem upsertRecords_cons (stored : List RecordData) (r : RecordData)
    (rest : List RecordData) :
    upsertRecords stored (r :: rest)
      = ⟨(upsertRecords (upsertRecords stored [r]).records rest).records,
         (upsertRecords stored [r]).added
           + (upsertRecords (upsertRecords stored [r]).records rest).added,
         (upsertRecords stored [r]).updated
           + (upsertRecords (upsertRecords stored [r]).records rest).updated⟩ := by
  cases hrest : rest with
  | nil =>
    have h₂ : upsertRecords (upsertRecords stored [r]).records [] =
        ⟨(upsertRecords stored [r]).records, 0, 0⟩ := rfl
    rw [h₂]
    simp
  | cons f rest₂ =>
    rw [← hrest]
    have hrne : ¬ rest = [] := by rw [hrest]; simp
    have hgood : goodMap (upsertMapStep (buildMap stored) r) :=
      goodMap_upsertMapStep _ r (goodMap_buildMap stored)
    have hbuild : buildMap (upsertRecords stored [r]).records
        = upsertMapStep (buildMap stored) r := by
      rw [upsertRecords_single]
      exact buildMap_mapValues _ hgood
    have hstep : upsertStep (buildMap stored, 0, 0) r
        = (upsertMapStep (buildMap stored) r,
           (upsertStep (buildMap stored, 0, 0) r).2.1,
           (upsertStep (buildMap stored, 0, 0) r).2.2) := by
      have h₁ := upsertStep_fst (buildMap stored, 0, 0) r
      cases hsplit : upsertStep (buildMap stored, 0, 0) r with
      | mk fst snd =>
        rw [hsplit] at h₁
        simp only at h₁
        rw [h₁]
    have hshift := foldl_upsertStep_counts_shift rest
      (upsertMapStep (buildMap stored) r)
      (upsertStep (buildMap stored, 0, 0) r).2.1
      (upsertStep (buildMap stored, 0, 0) r).2.2
    have hunfoldl : upsertRecords stored (r :: rest)
        = ⟨mapValues (rest.foldl upsertStep (upsertStep (buildMap stored, 0, 0) r)).1,
           (rest.foldl upsertStep (upsertStep (buildMap stored, 0, 0) r)).2.1,
           (rest.foldl upsertStep (upsertStep (buildMap stored, 0, 0) r)).2.2⟩ := by
      rw [upsertRecords_eq_of_ne stored (r :: rest) (by simp)]
      simp [List.foldl_cons]
    have hsecond : upsertRecords (upsertRecords stored [r]).records rest
        = ⟨mapValues (rest.foldl upsertStep (upsertMapStep (buildMap stored) r, 0, 0)).1,
           (rest.foldl upsertStep (upsertMapStep (buildMap stored) r, 0, 0)).2.1,
           (rest.foldl upsertStep (upsertMapStep (buildMap stored) r, 0, 0)).2.2⟩ := by
      rw [upsertRecords_eq_of_ne _ rest hrne, hbuild]
    rw [hunfoldl, hsecond, upsertRecords_single]
    simp only
    rw [hstep] at hshift
    obtain ⟨hsh₁, hsh₂⟩ := hshift
    rw [hstep]
    simp only [UpsertResult.mk.injEq]
    refine ⟨?_, ?_, ?_⟩
    · rw [foldl_upsertStep_fst, foldl_upsertStep_fst]
    · simpa using hsh₁
    · simpa using hsh₂

/-! Claim C1: field-level merge on upsert. -/

/-- C1: for every entity type and batch, upsertRecords performs a
field-level merge: an incoming property overwrites the stored one exactly
when its value is non-empty, non-null and non-undefined, and stored
properties the incoming record does not supply (or supplies empty) keep
their previous values (first conjunct); a record whose id matches no stored
id is appended as a new entry and counted in added (second conjunct); a
record whose id matches a stored id replaces it by the field-level merge and
is counted in updated (third conjunct); added and updated together count
every record of the batch (fourth conjunct); and a batch is processed as the
sequential composition of its records with the counters summed, which
extends the per-record conjuncts to arbitrary batches (fifth conjunct). -/
theorem upsert_field_level_merge :
    (∀ ex inc : RecordData, wfFields inc → ∀ k,
      mapGet (mergeRecord ex inc).fields k =
        match mapGet inc.fields k with
        | some v => if isNonEmptyValue v then some v else mapGet ex.fields k
        | none => mapGet ex.fields k)
    ∧ (∀ (stored : List RecordData) (r : RecordData), (idsOf stored).Nodup →
        (∀ t ∈ stored, ¬ t.id = r.id) →
        upsertRecords stored [r] = ⟨stored ++ [r], 1, 0⟩)
    ∧ (∀ (stored : List RecordData) (r ex : RecordData), (idsOf stored).Nodup →
        ex ∈ stored → ex.id = r.id →
        upsertRecords stored [r]
          = ⟨stored.map (fun t => if t.id = r.id then mergeRecord t r else t), 0, 1⟩)
    ∧ (∀ stored batch : List RecordData,
        (upsertRecords stored batch).added + (upsertRecords stored batch).updated
          = batch.length)
    ∧ (∀ (stored : List RecordData) (r : RecordData) (rest : List RecordData),
        upsertRecords stored (r :: rest)
          = ⟨(upsertRecords (upsertRecords stored [r]).records rest).records,
             (upsertRecords stored [r]).added
               + (upsertRecords (upsertRecords stored [r]).records rest).added,
             (upsertRecords stored [r]).updated
               + (upsertRecords (upsertRecords stored [r]).records rest).updated⟩) := by
  refine ⟨?_, upsertRecords_single_insert, upsertRecords_single_merge,
    upsertRecords_counts, upsertRecords_cons⟩
  intro ex inc hwf k
  rw [mapGet_mergeRecord, lastKeep_eq_of_nodup inc.fields k hwf]
  cases hget : mapGet inc.fields k with
  | none => simp
  | some v =>
    by_cases hkv : isNonEmptyValue v <;> simp [hkv]

/-- Witness for C1 at the example of the specification: a stored contact
with name and email merged with an incoming record carrying only a phone
keeps the untouched fields and gains the phone, counted as one update. -/
theorem upsert_field_level_merge_witness :
    (idsOf [RecordData.mk "c_1" [("name", OVal.str "Jane"), ("email", OVal.str "jane@x.com")]]).Nodup
    ∧ RecordData.mk "c_1" [("name", OVal.str "Jane"), ("email", OVal.str "jane@x.com")]
        ∈ [RecordData.mk "c_1" [("name", OVal.str "Jane"), ("email", OVal.str "jane@x.com")]]
    ∧ upsertRecords
        [RecordData.mk "c_1" [("name", OVal.str "Jane"), ("email", OVal.str "jane@x.com")]]
        [RecordData.mk "c_1" [("phone", OVal.str "555-1111")]]
      = ⟨[RecordData.mk "c_1" [("name", OVal.str "Jane"), ("email", OVal.str "jane@x.com"),
          ("phone", OVal.str "555-1111")]], 0, 1⟩ := by
  refine ⟨by decide, List.mem_singleton_self _, ?_⟩
  have h := upsert_field_level_merge.2.2.1
    [RecordData.mk "c_1" [("name", OVal.str "Jane"), ("email", OVal.str "jane@x.com")]]
    (RecordData.mk "c_1" [("phone", OVal.str "555-1111")])
    (RecordData.mk "c_1" [("name", OVal.str "Jane"), ("email", OVal.str "jane@x.com")])
    (by decide) (List.mem_singleton_self _) rfl
  rw [h]
  rfl

/-! Claim C5: delete semantics. -/

theorem length_sub_filter_not (l : List RecordData) (p : RecordData → Bool) :
    l.length - (l.filter (fun a => !(p a))).length = (l.filter p).length := by
  induction l with
  | nil => rfl
  | cons a l ih =>
    have hle := List.length_filter_le (fun a => !(p a)) l
    by_cases h : p a <;> simp [List.filter_cons, h] <;> omega

/-- C5: deleteRecordsById removes exactly the stored records whose id is in
the given id list (first conjunct), returns the number actually removed,
which is the count of stored records whose id is in the list (second
conjunct), and when no stored id matches it returns 0 and leaves the
collection unchanged (third conjunct). -/
theorem deleteRecordsById_spec :
    (∀ (stored : List RecordData) (ids : List String),
      (deleteRecordsById stored ids).1
        = stored.filter (fun r => !(ids.contains r.id)))
    ∧ (∀ (stored : List RecordData) (ids : List String),
      (deleteRecordsById stored ids).2
        = (stored.filter (fun r => ids.contains r.id)).length)
    ∧ (∀ (stored : List RecordData) (ids : List String),
      (∀ r ∈ stored, ids.contains r.id = false) →
      deleteRecordsById stored ids = (stored, 0)) := by
  refine ⟨?_, ?_, ?_⟩
  · intro stored ids
    unfold deleteRecordsById
    by_cases h : ids.isEmpty
    · rw [if_pos h]
      have hids : ids = [] := by
        cases ids with
        | nil => rfl
        | cons a l => simp [List.isEmpty] at h
      subst hids
      simp [List.contains]
    · rw [if_neg h]
  · intro stored ids
    unfold deleteRecordsById
    by_cases h : ids.isEmpty
    · rw [if_pos h]
      have hids : ids = [] := by
        cases ids with
        | nil => rfl
        | cons a l => simp [List.isEmpty] at h
      subst hids
      simp [List.contains]
    · rw [if_neg h]
      exact length_sub_filter_not stored (fun r => ids.contains r.id)
  · intro stored ids hno
    unfold deleteRecordsById
    by_cases h : ids.isEmpty
    · rw [if_pos h]
    · rw [if_neg h]
      have hkeep : stored.filter (fun r => !(ids.contains r.id)) = stored := by
        rw [List.filter_eq_self]
        intro r hr
        rw [hno r hr]
        rfl
      rw [hkeep]
      simp

/-- Witness for C5: deleting the unknown id c_999 from a store holding only
c_1 removes nothing and reports 0. -/
theorem deleteRecordsById_spec_witness :
    (∀ r ∈ [RecordData.mk "c_1" [("name", OVal.str "Jane")]],
      List.contains ["c_999"] r.id = false)
    ∧ deleteRecordsById [RecordData.mk "c_1" [("name", OVal.str "Jane")]] ["c_999"]
      = ([RecordData.mk "c_1" [("name", OVal.str "Jane")]], 0) := by
  refine ⟨?_, deleteRecordsById_spec.2.2 _ _ ?_⟩ <;>
  · intro r hr
    simp only [List.mem_singleton] at hr
    subst hr
    rfl

/-! Claim C10: owner-checked lock release. -/

/-- C10: releaseLock removes the stored lock only when the stored owner id
equals the caller id (second conjunct); a release by any other caller leaves
the lock unchanged (first conjunct) and releasing an empty slot is a no-op
(third conjunct); acquireLock refuses to touch a lock younger than the
30-second timeout (fourth conjunct), so whenever acquireLock changes a held
slot the lock had already aged past the timeout (fifth conjunct). -/
theorem releaseLock_owner_checked :
    (∀ (l : LockData) (id : String), ¬ l.id = id →
      releaseLock (some l) id = some l)
    ∧ (∀ l : LockData, releaseLock (some l) l.id = none)
    ∧ (∀ id : String, releaseLock none id = none)
    ∧ (∀ (l : LockData) (id : String) (now : Nat),
      now - l.timestamp < LOCK_TIMEOUT_MS →
      acquireLock (some l) id now = (false, some l))
    ∧ (∀ (l : LockData) (id : String) (now : Nat),
      ¬ (acquireLock (some l) id now).2 = some l →
      LOCK_TIMEOUT_MS ≤ now - l.timestamp) := by
  refine ⟨?_, ?_, ?_, ?_, ?_⟩
  · intro l id h
    simp [releaseLock, h]
  · intro l
    simp [releaseLock]
  · intro id
    rfl
  · intro l id now h
    simp [acquireLock, h]
  · intro l id now h
    by_cases hfresh : now - l.timestamp < LOCK_TIMEOUT_MS
    · exact absurd (by simp [acquireLock, hfresh]) h
    · omega

/-- Witness for C10: a caller b cannot release the lock held by a, the
owner a can, and a fresh lock blocks acquisition. -/
theorem releaseLock_owner_checked_witness :
    (¬ (LockData.mk "a" 1000).id = "b")
    ∧ releaseLock (some (LockData.mk "a" 1000)) "b" = some (LockData.mk "a" 1000)
    ∧ releaseLock (some (LockData.mk "a" 1000)) "a" = none
    ∧ (2000 - (LockData.mk "a" 1000).timestamp < LOCK_TIMEOUT_MS)
    ∧ acquireLock (some (LockData.mk "a" 1000)) "b" 2000
        = (false, some (LockData.mk "a" 1000)) := by
  refine ⟨by decide, releaseLock_owner_checked.1 _ _ (by decide), ?_, by decide,
    releaseLock_owner_checked.2.2.2.1 _ _ _ (by decide)⟩
  exact releaseLock_owner_checked.2.1 (LockData.mk "a" 1000)

/-! Claim C9: many2one reference-field normalization. -/

/-- C9: extractMany2oneName always yields a display label: the stringified
second element of a pair of length at least two (second conjunct), the
display_name or name property of an object, in that order of preference
(third and fourth conjuncts), a plain string itself (fifth conjunct); a
falsy link (false, null, undefined, zero or the empty string) yields the
empty string (first conjunct), and a raw numeric identifier, which carries
no label, also yields the empty string (sixth conjunct). -/
theorem extractMany2oneName_spec :
    (∀ v : OVal, oTruthy v = false → extractMany2oneName v = "")
    ∧ (∀ xs : List OVal, 2 ≤ xs.length →
      extractMany2oneName (.arr xs) = jsString (xs.getD 1 .undefined))
    ∧ (∀ fs : List (String × OVal),
      oTruthy ((mapGet fs "display_name").getD .undefined) = true →
      extractMany2oneName (.obj fs) = jsString ((mapGet fs "display_name").getD .undefined))
    ∧ (∀ fs : List (String × OVal),
      oTruthy ((mapGet fs "display_name").getD .undefined) = false →
      oTruthy ((mapGet fs "name").getD .undefined) = true →
      extractMany2oneName (.obj fs) = jsString ((mapGet fs "name").getD .undefined))
    ∧ (∀ s : String, extractMany2oneName (.str s) = s)
    ∧ (∀ n : Int, extractMany2oneName (.num n) = "") := by
  refine ⟨?_, ?_, ?_, ?_, ?_, ?_⟩
  · intro v hv
    cases v with
    | null => rfl
    | undefined => rfl
    | bool b =>
      cases b with
      | true => simp [oTruthy] at hv
      | false => rfl
    | num n => rfl
    | str s =>
      have hs : s = "" := by simpa [oTruthy] using hv
      rw [show extractMany2oneName (.str s) = s from rfl, hs]
    | arr xs => simp [oTruthy] at hv
    | obj fs => simp [oTruthy] at hv
  · intro xs h
    rw [extractMany2oneName, if_pos h]
  · intro fs h
    simp [extractMany2oneName, h]
  · intro fs h₁ h₂
    simp [extractMany2oneName, h₁, h₂]
  · intro s
    rfl
  · intro n
    rfl

/-- Witness for C9 covering each guarded conjunct at concrete links. -/
theorem extractMany2oneName_spec_witness :
    (oTruthy OVal.null = false ∧ extractMany2oneName OVal.null = "")
    ∧ (2 ≤ [OVal.num 7, OVal.str "Alice"].length
        ∧ extractMany2oneName (OVal.arr [OVal.num 7, OVal.str "Alice"]) = "Alice")
    ∧ (oTruthy ((mapGet [("display_name", OVal.str "Bob")] "display_name").getD .undefined) = true
        ∧ extractMany2oneName (OVal.obj [("display_name", OVal.str "Bob")]) = "Bob")
    ∧ (oTruthy ((mapGet [("name", OVal.str "Carol")] "display_name").getD .undefined) = false
        ∧ extractMany2oneName (OVal.obj [("name", OVal.str "Carol")]) = "Carol") := by
  refine ⟨⟨rfl, extractMany2oneName_spec.1 OVal.null rfl⟩,
    ⟨by decide, ?_⟩, ⟨rfl, ?_⟩, ⟨rfl, ?_⟩⟩
  · have h := extractMany2oneName_spec.2.1 [OVal.num 7, OVal.str "Alice"] (by decide)
    rw [h]
    rfl
  · have h := extractMany2oneName_spec.2.2.1 [("display_name", OVal.str "Bob")] rfl
    rw [h]
    rfl
  · have h := extractMany2oneName_spec.2.2.2.1 [("name", OVal.str "Carol")] rfl rfl
    rw [h]
    rfl

/-! Claim C8: traversal termination. -/

theorem pagLoop_le (v : PagedView) (fuel s : Nat) (visited : List (Nat × Nat))
    (visits : Nat) : pagLoop v fuel s visited visits ≤ visits + fuel := by
  induction fuel generalizing s visited visits with
  | zero => simp [pagLoop]
  | succ f ih =>
    rw [pagLoop]
    cases hpi : v.pageInfo s with
    | some p =>
      simp only
      by_cases hmem : (p.currentStart, p.currentEnd) ∈ visited
      · rw [if_pos hmem]
        omega
      · rw [if_neg hmem]
        by_cases htot : p.total ≤ p.currentEnd
        · rw [if_pos htot]
          omega
        · rw [if_neg htot]
          by_cases hnext : v.hasNext s
          · rw [if_pos hnext]
            have := ih (v.next s) ((p.currentStart, p.currentEnd) :: visited) (visits + 1)
            omega
          · rw [if_neg hnext]
            omega
    | none =>
      simp only
      by_cases hnext : v.hasNext s
      · rw [if_pos hnext]
        have := ih (v.next s) visited (visits + 1)
        omega
      · rw [if_neg hnext]
        omega

theorem pagLoop_sim (n : Nat) (hn : 1 ≤ n) :
    ∀ (k i fuel : Nat) (visited : List (Nat × Nat)) (visits : Nat),
      1 ≤ i → i + k = n → k < fuel →
      (∀ j, i ≤ j → ¬ ((j - 1) * 50 + 1, j * 50) ∈ visited) →
      pagLoop (simPagedView n) fuel i visited visits = visits + (k + 1) := by
  intro k
  induction k with
  | zero =>
    intro i fuel visited visits hi hik hfuel hvis
    have hieq : i = n := by omega
    cases fuel with
    | zero => omega
    | succ f =>
      rw [pagLoop]
      have hle : i ≤ n := by omega
      have hpi : (simPagedView n).pageInfo i = some ⟨(i - 1) * 50 + 1, i * 50, n * 50⟩ := by
        simp [simPagedView, hi, hle]
      rw [hpi]
      simp only
      rw [if_neg (hvis i le_rfl)]
      rw [if_pos (by omega : n * 50 ≤ i * 50)]
  | succ k ih =>
    intro i fuel visited visits hi hik hfuel hvis
    have hin : i < n := by omega
    cases fuel with
    | zero => omega
    | succ f =>
      rw [pagLoop]
      have hpi : (simPagedView n).pageInfo i = some ⟨(i - 1) * 50 + 1, i * 50, n * 50⟩ := by
        have hle : i ≤ n := by omega
        simp [simPagedView, hi, hle]
      rw [hpi]
      simp only
      rw [if_neg (hvis i le_rfl)]
      have htot : ¬ (n * 50 ≤ i * 50) := by omega
      rw [if_neg htot]
      have hnext : (simPagedView n).hasNext i = true := rfl
      rw [if_pos hnext]
      have hstep : (simPagedView n).next i = i + 1 := by
        simp [simPagedView, Nat.mod_eq_of_lt hin]
      rw [hstep]
      have hrec := ih (i + 1) f (((i - 1) * 50 + 1, i * 50) :: visited) (visits + 1)
        (by omega) (by omega) (by omega) ?_
      · rw [hrec]
        omega
      · intro j hj hmem
        rcases List.mem_cons.mp hmem with heq | hmem₂
        · have hsnd : j * 50 = i * 50 := congrArg Prod.snd heq
          omega
        · exact hvis j (by omega) hmem₂

/-- C8: the traversal loop never visits more pages than the maxPages safety
ceiling, for any paginated source (first conjunct); for the simulated source
of n pages with ranges 1-50 through (n-1)*50+1-n*50 and reported total n*50,
it visits exactly n pages and stops, for any n within the default ceiling of
50 (second conjunct); a source whose pager repeats the same range (the
wrap-around) is visited exactly once (third conjunct); and a page with no
enabled next control is visited exactly once (fourth conjunct). -/
theorem extractWithPagination_terminates :
    (∀ (v : PagedView) (s maxPages : Nat),
      extractWithPagination v s maxPages ≤ maxPages)
    ∧ (∀ n : Nat, 1 ≤ n → n ≤ 50 →
      extractWithPagination (simPagedView n) 1 50 = n)
    ∧ (∀ (p : PageInfo) (s maxPages : Nat), 2 ≤ maxPages →
      p.currentEnd < p.total →
      extractWithPagination (PagedView.mk (fun _ => some p) (fun _ => true) id)
        s maxPages = 1)
    ∧ (∀ (v : PagedView) (s maxPages : Nat), v.hasNext s = false →
      1 ≤ maxPages → extractWithPagination v s maxPages = 1) := by
  refine ⟨?_, ?_, ?_, ?_⟩
  · intro v s maxPages
    have := pagLoop_le v maxPages s [] 0
    simpa [extractWithPagination] using this
  · intro n h₁ h₂
    have := pagLoop_sim n h₁ (n - 1) 1 50 [] 0 (le_refl 1) (by omega) (by omega)
      (fun j _ hmem => by simp at hmem)
    rw [extractWithPagination, this]
    omega
  · intro p s maxPages hmax hlt
    obtain ⟨m, rfl⟩ : ∃ m, maxPages = m + 2 := ⟨maxPages - 2, by omega⟩
    rw [extractWithPagination, pagLoop]
    simp only
    rw [if_neg (by simp : ¬ (p.currentStart, p.currentEnd) ∈ ([] : List (Nat × Nat)))]
    rw [if_neg (by omega : ¬ p.total ≤ p.currentEnd)]
    rw [if_pos trivial]
    rw [pagLoop]
    simp only
    rw [if_pos (List.mem_singleton_self _)]
  · intro v s maxPages hnext hmax
    obtain ⟨m, rfl⟩ : ∃ m, maxPages = m + 1 := ⟨maxPages - 1, by omega⟩
    rw [extractWithPagination, pagLoop]
    cases hpi : v.pageInfo s with
    | some p =>
      simp only
      rw [if_neg (by simp : ¬ (p.currentStart, p.currentEnd) ∈ ([] : List (Nat × Nat)))]
      by_cases htot : p.total ≤ p.currentEnd
      · rw [if_pos htot]
      · rw [if_neg htot, if_neg (by simp [hnext])]
    | none =>
      simp only
      rw [if_neg (by simp [hnext])]

/-- Witness for C8: a four page simulated source is visited exactly four
times under the ceiling 50, and a view with a disabled next control is
visited once. -/
theorem extractWithPagination_terminates_witness :
    ((1 : Nat) ≤ 4 ∧ (4 : Nat) ≤ 50
      ∧ extractWithPagination (simPagedView 4) 1 50 = 4)
    ∧ ((PagedView.mk (fun _ => none) (fun _ => false) id).hasNext 1 = false
      ∧ extractWithPagination (PagedView.mk (fun _ => none) (fun _ => false) id) 1 50 = 1) := by
  refine ⟨⟨by decide, by decide,
    extractWithPagination_terminates.2.1 4 (by decide) (by decide)⟩,
    ⟨rfl, extractWithPagination_terminates.2.2.2 _ 1 50 rfl (by decide)⟩⟩

/-! Claim C6: identifier cache first-writer-wins and idempotence. -/

theorem cacheGet_populateRow_preserved (c : OppIdCache) (row : CacheRow)
    (k : String) (v : Int) (h : cacheGet c k = some v) :
    cacheGet (populateRow c row) k = some v := by
  unfold populateRow
  cases hid : row.id with
  | none => exact h
  | some i =>
    cases hname : row.name with
    | none => exact h
    | some n =>
      simp only
      by_cases h₁ : (!(i = 0) && !(n = "")) = true
      · rw [if_pos h₁]
        by_cases h₂ : cacheHas c (normalizeOpportunityName n) = true
        · rw [if_pos h₂]
          exact h
        · rw [if_neg h₂]
          have hk : ¬ normalizeOpportunityName n = k := by
            intro heq
            apply h₂
            rw [heq]
            unfold cacheHas
            unfold cacheGet at h
            simp [h]
          unfold cacheGet at h ⊢
          rw [mapGet_mapSet, if_neg hk]
          exact h
      · rw [if_neg h₁]
        exact h

theorem cacheGet_populate_preserved (c : OppIdCache) (rows : List CacheRow)
    (k : String) (v : Int) (h : cacheGet c k = some v) :
    cacheGet (populateOpportunityIdCache c rows) k = some v := by
  induction rows generalizing c with
  | nil => exact h
  | cons row rows ih =>
    rw [show populateOpportunityIdCache c (row :: rows)
      = populateOpportunityIdCache (populateRow c row) rows from rfl]
    exact ih (populateRow c row) (cacheGet_populateRow_preserved c row k v h)

theorem cacheHas_populateRow_mono (c : OppIdCache) (row : CacheRow) (k : String)
    (h : cacheHas c k = true) : cacheHas (populateRow c row) k = true := by
  unfold cacheHas at h
  obtain ⟨v, hv⟩ := Option.isSome_iff_exists.mp h
  unfold cacheHas
  rw [show mapGet (populateRow c row) k = cacheGet (populateRow c row) k from rfl,
    cacheGet_populateRow_preserved c row k v hv]
  rfl

theorem cacheHas_populate_mono (c : OppIdCache) (rows : List CacheRow) (k : String)
    (h : cacheHas c k = true) : cacheHas (populateOpportunityIdCache c rows) k = true := by
  induction rows generalizing c with
  | nil => exact h
  | cons row rows ih =>
    exact ih (populateRow c row) (cacheHas_populateRow_mono c row k h)

theorem cacheHas_populateRow_self (c : OppIdCache) (i : Int) (n : String)
    (hi : ¬ i = 0) (hn : ¬ n = "") :
    cacheHas (populateRow c (CacheRow.mk (some i) (some n)))
      (normalizeOpportunityName n) = true := by
  unfold populateRow
  simp only
  rw [if_pos (by simp [hi, hn])]
  by_cases h₂ : cacheHas c (normalizeOpportunityName n) = true
  · rw [if_pos h₂]
    exact h₂
  · rw [if_neg h₂]
    unfold cacheHas
    rw [mapGet_mapSet, if_pos rfl]
    rfl

theorem cacheHas_populate_of_mem (c : OppIdCache) (rows : List CacheRow)
    (row : CacheRow) (i : Int) (n : String) (hmem : row ∈ rows)
    (hid : row.id = some i) (hname : row.name = some n)
    (hi : ¬ i = 0) (hn : ¬ n = "") :
    cacheHas (populateOpportunityIdCache c rows) (normalizeOpportunityName n) = true := by
  induction rows generalizing c with
  | nil => simp at hmem
  | cons f rows ih =>
    rw [show populateOpportunityIdCache c (f :: rows)
      = populateOpportunityIdCache (populateRow c f) rows from rfl]
    rcases List.mem_cons.mp hmem with hrf | hrf
    · subst hrf
      apply cacheHas_populate_mono
      have hrow : row = CacheRow.mk (some i) (some n) := by
        cases row
        simp only at hid hname
        rw [hid, hname]
      rw [hrow]
      exact cacheHas_populateRow_self c i n hi hn
    · exact ih (populateRow c f) hrf

theorem populate_of_steps_id (c : OppIdCache) (rows : List CacheRow)
    (h : ∀ row ∈ rows, populateRow c row = c) :
    populateOpportunityIdCache c rows = c := by
  induction rows with
  | nil => rfl
  | cons row rows ih =>
    rw [show populateOpportunityIdCache c (row :: rows)
      = populateOpportunityIdCache (populateRow c row) rows from rfl,
      h row (List.mem_cons_self _ _)]
    exact ih (fun f hf => h f (List.mem_cons_of_mem _ hf))

/-- C6: the populate operation of the opportunity id cache never overwrites
an existing entry for a normalized name, so the first id cached for a key is
kept (first conjunct); the single-insert setOpportunityId obeys the same
rule (second conjunct) and is the identity when the normalized name is
already cached (third conjunct); and populating again with the same rows
leaves the cache unchanged (fourth conjunct). -/
theorem opportunityIdCache_first_writer_wins :
    (∀ (c : OppIdCache) (rows : List CacheRow) (k : String) (v : Int),
      cacheGet c k = some v →
      cacheGet (populateOpportunityIdCache c rows) k = some v)
    ∧ (∀ (c : OppIdCache) (name : String) (i : Int) (k : String) (v : Int),
      cacheGet c k = some v →
      cacheGet (setOpportunityId c name i) k = some v)
    ∧ (∀ (c : OppIdCache) (name : String) (i : Int),
      cacheHas c (normalizeOpportunityName name) = true →
      setOpportunityId c name i = c)
    ∧ (∀ (c : OppIdCache) (rows : List CacheRow),
      populateOpportunityIdCache (populateOpportunityIdCache c rows) rows
        = populateOpportunityIdCache c rows) := by
  refine ⟨cacheGet_populate_preserved, ?_, ?_, ?_⟩
  · intro c name i k v h
    unfold setOpportunityId
    by_cases h₂ : cacheHas c (normalizeOpportunityName name) = true
    · rw [if_pos h₂]
      exact h
    · rw [if_neg h₂]
      have hk : ¬ normalizeOpportunityName name = k := by
        intro heq
        apply h₂
        rw [heq]
        unfold cacheHas
        unfold cacheGet at h
        simp [h]
      unfold cacheGet at h ⊢
      rw [mapGet_mapSet, if_neg hk]
      exact h
  · intro c name i h
    unfold setOpportunityId
    rw [if_pos h]
  · intro c rows
    apply populate_of_steps_id
    intro row hmem
    unfold populateRow
    cases hid : row.id with
    | none => rfl
    | some i =>
      cases hname : row.name with
      | none => rfl
      | some n =>
        simp only
        by_cases h₁ : (!(i = 0) && !(n = "")) = true
        · have hcomp := (Bool.and_eq_true _ _).mp h₁
          have hi : ¬ i = 0 := by simpa using hcomp.1
          have hn : ¬ n = "" := by simpa using hcomp.2
          rw [if_pos h₁]
          rw [if_pos (cacheHas_populate_of_mem c rows row i n hmem hid hname hi hn)]
        · rw [if_neg h₁]

/-- Witness for C6: a cache already holding acme at id 3 keeps 3 after a
populate carrying id 5 for the same normalized name, setOpportunityId is a
no-op on the cached key, and repopulating changes nothing. -/
theorem opportunityIdCache_first_writer_wins_witness :
    (cacheGet [("acme", (3 : Int))] "acme" = some 3
      ∧ cacheGet (populateOpportunityIdCache [("acme", (3 : Int))]
          [CacheRow.mk (some 5) (some "  Acme ")]) "acme" = some 3)
    ∧ (cacheHas [("acme", (3 : Int))] (normalizeOpportunityName "Acme") = true
      ∧ setOpportunityId [("acme", (3 : Int))] "Acme" 5 = [("acme", (3 : Int))])
    ∧ populateOpportunityIdCache
        (populateOpportunityIdCache [] [CacheRow.mk (some 5) (some "Acme")])
        [CacheRow.mk (some 5) (some "Acme")]
      = populateOpportunityIdCache [] [CacheRow.mk (some 5) (some "Acme")] := by
  refine ⟨⟨rfl, opportunityIdCache_first_writer_wins.1 _ _ "acme" 3 rfl⟩,
    ⟨by decide, opportunityIdCache_first_writer_wins.2.2.1 _ "Acme" 5 (by decide)⟩,
    opportunityIdCache_first_writer_wins.2.2.2 [] [CacheRow.mk (some 5) (some "Acme")]⟩

/-! Claim C2: identifier upgrade by correlation key. -/

theorem updateFirstMatch_none_of (p : RecordData → Bool) (f : RecordData → RecordData)
    (l : List RecordData) (h : ∀ x ∈ l, p x = false) :
    updateFirstMatch p f l = none := by
  induction l with
  | nil => rfl
  | cons x xs ih =>
    rw [updateFirstMatch, if_neg (by simp [h x (List.mem_cons_self _ _)]),
      ih (fun y hy => h y (List.mem_cons_of_mem _ hy))]
    rfl

theorem updateFirstMatch_append (p : RecordData → Bool) (f : RecordData → RecordData)
    (l₁ l₂ : List RecordData) (ex : RecordData)
    (hskip : ∀ y ∈ l₁, p y = false) (hhit : p ex = true) :
    updateFirstMatch p f (l₁ ++ ex :: l₂) = some (l₁ ++ f ex :: l₂) := by
  induction l₁ with
  | nil =>
    rw [List.nil_append, updateFirstMatch, if_pos hhit, List.nil_append]
  | cons y l₁ ih =>
    rw [List.cons_append, updateFirstMatch,
      if_neg (by simp [hskip y (List.mem_cons_self _ _)]),
      ih (fun z hz => hskip z (List.mem_cons_of_mem _ hz)), List.cons_append]
    rfl

theorem isRealId_id_ne_empty (tag s : String) (h : isRealId tag s = true) :
    ¬ s = "" := by
  intro heq
  subst heq
  unfold isRealId at h
  cases htag : ("" : String).data.drop tag.data.length with
  | nil => rw [htag] at h; simp at h
  | cons c cs =>
    have : ("" : String).data = [] := rfl
    rw [this] at htag
    simp at htag

theorem upsertKeyStep_upgrade (tag key : String) (l₁ l₂ : List RecordData)
    (ex r : RecordData) (s : String) (a u : Nat)
    (hreal : isRealId tag r.id = true)
    (hname : r.getStr key = some s) (hs : ¬ s = "")
    (hnoid : ∀ t ∈ l₁ ++ ex :: l₂, ¬ t.id = r.id)
    (hmatch : keyMatches key (jsTrim (jsToLower s)) ex = true)
    (hskip : ∀ y ∈ l₁, keyMatches key (jsTrim (jsToLower s)) y = false) :
    upsertKeyStep tag key (l₁ ++ ex :: l₂, a, u) r
      = (l₁ ++ mergeRecord ex r :: l₂, a, u + 1) := by
  unfold upsertKeyStep
  rw [updateFirstMatch_none_of _ _ _ (fun t ht => by
    simp only [decide_eq_false_iff_not]
    exact hnoid t ht)]
  simp only
  rw [hreal]
  simp only [if_true]
  rw [hname]
  simp only
  rw [if_neg hs]
  rw [updateFirstMatch_append _ _ l₁ l₂ ex hskip hmatch]

theorem mergeRecord_id_of_real (tag : String) (ex r : RecordData)
    (hreal : isRealId tag r.id = true) : (mergeRecord ex r).id = r.id := by
  rw [mergeRecord_id, if_neg (isRealId_id_ne_empty tag r.id hreal)]

theorem upgrade_core (tag key : String) (l₁ l₂ : List RecordData)
    (ex r : RecordData) (s : String)
    (hnodup : (idsOf (l₁ ++ ex :: l₂)).Nodup)
    (hreal : isRealId tag r.id = true)
    (hname : r.getStr key = some s) (hs : ¬ s = "")
    (hnoid : ∀ t ∈ l₁ ++ ex :: l₂, ¬ t.id = r.id)
    (hmatch : keyMatches key (jsTrim (jsToLower s)) ex = true)
    (hskip : ∀ y ∈ l₁, keyMatches key (jsTrim (jsToLower s)) y = false) :
    ((l₁ ++ mergeRecord ex r :: l₂).filter (fun t => t.id = r.id)).length = 1
    ∧ (∀ t ∈ l₁ ++ mergeRecord ex r :: l₂, ¬ t.id = ex.id) := by
  have hmid : (mergeRecord ex r).id = r.id := mergeRecord_id_of_real tag ex r hreal
  have hexne : ¬ ex.id = r.id := hnoid ex (List.mem_append_right _ (List.mem_cons_self _ _))
  constructor
  · have hl₁ : l₁.filter (fun t => t.id = r.id) = [] := by
      rw [List.filter_eq_nil_iff]
      intro t ht
      simp only [decide_eq_true_eq]
      exact hnoid t (List.mem_append_left _ ht)
    have hl₂ : l₂.filter (fun t => t.id = r.id) = [] := by
      rw [List.filter_eq_nil_iff]
      intro t ht
      simp only [decide_eq_true_eq]
      exact hnoid t (List.mem_append_right _ (List.mem_cons_of_mem _ ht))
    rw [List.filter_append, hl₁, List.filter_cons, hl₂]
    simp [hmid]
  · intro t ht
    rcases List.mem_append.mp ht with htl | htr
    · -- t in the untouched left part: its id differs from ex.id by Nodup
      intro heq
      have hsplit : (idsOf l₁).Nodup ∧ ¬ ex.id ∈ idsOf l₁ := by
        rw [idsOf, List.map_append] at hnodup
        have h₁ := List.Nodup.of_append_left hnodup
        have h₂ := List.disjoint_of_nodup_append hnodup
        refine ⟨h₁, fun hmem => ?_⟩
        exact h₂ hmem (by simp [idsOf])
      exact hsplit.2 (heq ▸ List.mem_map_of_mem RecordData.id htl)
    · rcases List.mem_cons.mp htr with hteq | htl₂
      · subst hteq
        rw [hmid]
        intro heq
        exact hexne heq.symm
      · intro heq
        rw [idsOf, List.map_append] at hnodup
        have h₂ := List.disjoint_of_nodup_append hnodup
        have h₃ := List.Nodup.of_append_right hnodup
        simp only [List.map_cons, List.nodup_cons] at h₃
        exact h₃.1 (heq ▸ List.mem_map_of_mem RecordData.id htl₂)

/-- C2: identifier upgrade.  For both the opportunity upsert (matching by
name) and the activity upsert (matching by summary): when an incoming record
carries an authoritative id (opp_ or act_ followed by digits) that equals no
stored id, and a stored record (the first match) has the same normalized
correlation key, the upsert replaces that record in place by the field-level
merge, whose id is the authoritative one; afterwards exactly one record has
the authoritative id and none has the old provisional id; the batch counts
one update and no addition. -/
theorem identifier_upgrade :
    (∀ (l₁ l₂ : List RecordData) (ex r : RecordData) (s : String),
      (idsOf (l₁ ++ ex :: l₂)).Nodup →
      isRealId "opp_" r.id = true →
      r.getStr "name" = some s → ¬ s = "" →
      (∀ t ∈ l₁ ++ ex :: l₂, ¬ t.id = r.id) →
      keyMatches "name" (jsTrim (jsToLower s)) ex = true →
      (∀ y ∈ l₁, keyMatches "name" (jsTrim (jsToLower s)) y = false) →
      upsertOpportunitiesWithNameMatching (l₁ ++ ex :: l₂) [r]
          = ⟨l₁ ++ mergeRecord ex r :: l₂, 0, 1⟩
        ∧ (mergeRecord ex r).id = r.id
        ∧ ((l₁ ++ mergeRecord ex r :: l₂).filter (fun t => t.id = r.id)).length = 1
        ∧ (∀ t ∈ l₁ ++ mergeRecord ex r :: l₂, ¬ t.id = ex.id))
    ∧ (∀ (l₁ l₂ : List RecordData) (ex r : RecordData) (s : String),
      (idsOf (l₁ ++ ex :: l₂)).Nodup →
      isRealId "act_" r.id = true →
      r.getStr "summary" = some s → ¬ s = "" →
      (∀ t ∈ l₁ ++ ex :: l₂, ¬ t.id = r.id) →
      keyMatches "summary" (jsTrim (jsToLower s)) ex = true →
      (∀ y ∈ l₁, keyMatches "summary" (jsTrim (jsToLower s)) y = false) →
      upsertActivitiesWithSummaryMatching (l₁ ++ ex :: l₂) [r]
          = ⟨l₁ ++ mergeRecord ex r :: l₂, 0, 1⟩
        ∧ (mergeRecord ex r).id = r.id
        ∧ ((l₁ ++ mergeRecord ex r :: l₂).filter (fun t => t.id = r.id)).length = 1
        ∧ (∀ t ∈ l₁ ++ mergeRecord ex r :: l₂, ¬ t.id = ex.id)) := by
  constructor
  · intro l₁ l₂ ex r s hnodup hreal hname hs hnoid hmatch hskip
    have hcore := upgrade_core "opp_" "name" l₁ l₂ ex r s hnodup hreal hname hs
      hnoid hmatch hskip
    refine ⟨?_, mergeRecord_id_of_real "opp_" ex r hreal, hcore.1, hcore.2⟩
    unfold upsertOpportunitiesWithNameMatching
    rw [List.foldl_cons, List.foldl_nil,
      upsertKeyStep_upgrade "opp_" "name" l₁ l₂ ex r s 0 0 hreal hname hs
        hnoid hmatch hskip]
  · intro l₁ l₂ ex r s hnodup hreal hname hs hnoid hmatch hskip
    have hcore := upgrade_core "act_" "summary" l₁ l₂ ex r s hnodup hreal hname hs
      hnoid hmatch hskip
    refine ⟨?_, mergeRecord_id_of_real "act_" ex r hreal, hcore.1, hcore.2⟩
    unfold upsertActivitiesWithSummaryMatching
    rw [List.foldl_cons, List.foldl_nil,
      upsertKeyStep_upgrade "act_" "summary" l₁ l₂ ex r s 0 0 hreal hname hs
        hnoid hmatch hskip]

/-- Witness for C2 at the example of the specification: a stored provisional
opportunity opp_h4x named Acme Renewal is upgraded by an incoming
authoritative opp_42 with the same name; afterwards exactly one record holds
opp_42 and none holds opp_h4x. -/
theorem identifier_upgrade_witness :
    upsertOpportunitiesWithNameMatching
        [RecordData.mk "opp_h4x" [("name", OVal.str "Acme Renewal")]]
        [RecordData.mk "opp_42" [("name", OVal.str "Acme Renewal"), ("revenue", OVal.num 10)]]
      = ⟨[mergeRecord (RecordData.mk "opp_h4x" [("name", OVal.str "Acme Renewal")])
            (RecordData.mk "opp_42" [("name", OVal.str "Acme Renewal"), ("revenue", OVal.num 10)])],
         0, 1⟩
    ∧ (mergeRecord (RecordData.mk "opp_h4x" [("name", OVal.str "Acme Renewal")])
        (RecordData.mk "opp_42" [("name", OVal.str "Acme Renewal"), ("revenue", OVal.num 10)])).id
      = "opp_42" := by
  have h := identifier_upgrade.1 [] []
    (RecordData.mk "opp_h4x" [("name", OVal.str "Acme Renewal")])
    (RecordData.mk "opp_42" [("name", OVal.str "Acme Renewal"), ("revenue", OVal.num 10)])
    "Acme Renewal"
    (by decide) (by decide) rfl (by decide)
    (by
      intro t ht
      simp only [List.nil_append, List.mem_singleton] at ht
      subst ht
      decide)
    (by decide)
    (by intro y hy; simp at hy)
  exact ⟨by simpa using h.1, h.2.1⟩

/-! Claim C3: identity-uniqueness invariant. -/

theorem idsOf_mapValues_of_goodMap (m : List (String × RecordData))
    (h : goodMap m) : idsOf (mapValues m) = mapKeys m := by
  unfold idsOf mapValues mapKeys
  rw [List.map_map]
  exact List.map_congr_left (fun e he => h.2 e he)

theorem nodup_idsOf_of_goodMap (m : List (String × RecordData))
    (h : goodMap m) : (idsOf (mapValues m)).Nodup := by
  rw [idsOf_mapValues_of_goodMap m h]
  exact h.1

theorem updateFirstMatch_eq_some_decomp (p : RecordData → Bool)
    (f : RecordData → RecordData) (l l₂ : List RecordData)
    (h : updateFirstMatch p f l = some l₂) :
    ∃ a x b, l = a ++ x :: b ∧ l₂ = a ++ f x :: b ∧ p x = true
      ∧ ∀ y ∈ a, p y = false := by
  induction l generalizing l₂ with
  | nil => simp [updateFirstMatch] at h
  | cons x xs ih =>
    rw [updateFirstMatch] at h
    by_cases hp : p x = true
    · rw [if_pos hp] at h
      obtain rfl : f x :: xs = l₂ := Option.some.inj h
      exact ⟨[], x, xs, rfl, rfl, hp, by simp⟩
    · rw [if_neg hp] at h
      cases hrec : updateFirstMatch p f xs with
      | none => rw [hrec] at h; simp at h
      | some l₃ =>
        rw [hrec] at h
        obtain rfl : x :: l₃ = l₂ := by
          simpa using h
        obtain ⟨a, y, b, h₁, h₂, h₃, h₄⟩ := ih l₃ hrec
        refine ⟨x :: a, y, b, by rw [List.cons_append, h₁], by rw [List.cons_append, h₂],
          h₃, ?_⟩
        intro z hz
        rcases List.mem_cons.mp hz with hzx | hza
        · subst hzx
          simpa using hp
        · exact h₄ z hza

theorem updateFirstMatch_eq_none_forall (p : RecordData → Bool)
    (f : RecordData → RecordData) (l : List RecordData)
    (h : updateFirstMatch p f l = none) : ∀ x ∈ l, p x = false := by
  induction l with
  | nil => intro x hx; simp at hx
  | cons y ys ih =>
    rw [updateFirstMatch] at h
    by_cases hp : p y = true
    · rw [if_pos hp] at h; simp at h
    · rw [if_neg hp] at h
      cases hrec : updateFirstMatch p f ys with
      | some l₃ => rw [hrec] at h; simp at h
      | none =>
        intro x hx
        rcases List.mem_cons.mp hx with hxy | hxy
        · subst hxy; simpa using hp
        · exact ih hrec x hxy

theorem nodup_ids_append_single (l : List RecordData) (r : RecordData)
    (h : (idsOf l).Nodup) (hfree : ∀ t ∈ l, ¬ t.id = r.id) :
    (idsOf (l ++ [r])).Nodup := by
  unfold idsOf at h ⊢
  rw [List.map_append, List.nodup_append]
  refine ⟨h, List.nodup_singleton _, ?_⟩
  intro a ha hb
  simp only [List.map_cons, List.map_nil, List.mem_singleton] at hb
  obtain ⟨t, ht, rfl⟩ := List.mem_map.mp ha
  exact hfree t ht hb

theorem nodup_ids_replace (la lb : List RecordData) (x w : RecordData)
    (h : (idsOf (la ++ x :: lb)).Nodup)
    (hfree : ∀ t ∈ la ++ x :: lb, ¬ t.id = w.id) :
    (idsOf (la ++ w :: lb)).Nodup := by
  unfold idsOf at h ⊢
  rw [List.map_append, List.map_cons] at h ⊢
  rw [List.nodup_middle] at h ⊢
  rcases List.nodup_cons.mp h with ⟨_, htail⟩
  refine List.nodup_cons.mpr ⟨?_, htail⟩
  intro hmem
  rw [← List.map_append] at hmem
  obtain ⟨t, ht, hid⟩ := List.mem_map.mp hmem
  have htl : t ∈ la ++ x :: lb := by
    rcases List.mem_append.mp ht with h₁ | h₁
    · exact List.mem_append_left _ h₁
    · exact List.mem_append_right _ (List.mem_cons_of_mem _ h₁)
  exact hfree t htl hid

theorem nodup_upsertKeyStep (tag key : String)
    (l : List RecordData) (a u : Nat) (r : RecordData)
    (h : (idsOf l).Nodup) :
    (idsOf (upsertKeyStep tag key (l, a, u) r).1).Nodup := by
  unfold upsertKeyStep
  cases hbyid : updateFirstMatch (fun item => decide (item.id = r.id))
      (fun ex => mergeRecord ex r) l with
  | some l₂ =>
    simp only
    obtain ⟨la, x, lb, h₁, h₂, h₃, _⟩ :=
      updateFirstMatch_eq_some_decomp _ _ l l₂ hbyid
    have hxid : x.id = r.id := by simpa using h₃
    have hmid : (mergeRecord x r).id = x.id := by
      rw [mergeRecord_id]
      by_cases hr : r.id = ""
      · rw [if_pos hr]
      · rw [if_neg hr, hxid]
    subst h₁ h₂
    have hids : idsOf (la ++ mergeRecord x r :: lb) = idsOf (la ++ x :: lb) := by
      unfold idsOf
      rw [List.map_append, List.map_append, List.map_cons, List.map_cons, hmid]
    rw [hids]
    exact h
  | none =>
    simp only
    have hfree : ∀ t ∈ l, ¬ t.id = r.id := by
      intro t ht heq
      have := updateFirstMatch_eq_none_forall _ _ l hbyid t ht
      simp [heq] at this
    by_cases hreal : isRealId tag r.id = true
    · rw [if_pos hreal]
      cases hstr : r.getStr key with
      | none =>
        simp only
        exact nodup_ids_append_single l r h hfree
      | some s =>
        simp only
        by_cases hs : s = ""
        · rw [if_pos hs]
          simp only
          exact nodup_ids_append_single l r h hfree
        · rw [if_neg hs]
          cases hkey : updateFirstMatch (keyMatches key (jsTrim (jsToLower s)))
              (fun ex => mergeRecord ex r) l with
          | none =>
            simp only
            exact nodup_ids_append_single l r h hfree
          | some l₂ =>
            simp only
            obtain ⟨la, x, lb, h₁, h₂, _, _⟩ :=
              updateFirstMatch_eq_some_decomp _ _ l l₂ hkey
            have hmid : (mergeRecord x r).id = r.id :=
              mergeRecord_id_of_real tag x r hreal
            subst h₁ h₂
            refine nodup_ids_replace la lb x (mergeRecord x r) h ?_
            intro t ht heq
            rw [hmid] at heq
            exact hfree t ht heq
    · rw [if_neg hreal]
      simp only
      exact nodup_ids_append_single l r h hfree

theorem nodup_foldl_upsertKeyStep (tag key : String) (batch : List RecordData) :
    ∀ st : List RecordData × Nat × Nat, (idsOf st.1).Nodup →
      (idsOf (batch.foldl (upsertKeyStep tag key) st).1).Nodup := by
  induction batch with
  | nil => intro st h; exact h
  | cons r batch ih =>
    intro st h
    rw [List.foldl_cons]
    apply ih
    obtain ⟨l, a, u⟩ := st
    exact nodup_upsertKeyStep tag key l a u r h

theorem nodup_filter_ids (stored : List RecordData) (p : RecordData → Bool)
    (h : (idsOf stored).Nodup) : (idsOf (stored.filter p)).Nodup := by
  unfold idsOf at h ⊢
  exact List.Sublist.nodup (List.Sublist.map RecordData.id (List.filter_sublist stored)) h

/-- C3: every store operation preserves the invariant that ids within a
collection are pairwise distinct.  deduplicateById (hence the saveData
merge) establishes the invariant outright for any input (first and second
conjuncts); upsertRecords (third), the name-matching opportunity upsert
(fourth), the summary-matching activity upsert (fifth), deleteRecordsById
(sixth) and deleteRecord (seventh) each preserve it for every starting
state satisfying it and every input batch. -/
theorem store_ids_nodup_invariant :
    (∀ l : List RecordData, (idsOf (deduplicateById l)).Nodup)
    ∧ (∀ existing new : List RecordData, (idsOf (saveDataMerge existing new)).Nodup)
    ∧ (∀ stored batch : List RecordData, (idsOf stored).Nodup →
      (idsOf (upsertRecords stored batch).records).Nodup)
    ∧ (∀ stored batch : List RecordData, (idsOf stored).Nodup →
      (idsOf (upsertOpportunitiesWithNameMatching stored batch).records).Nodup)
    ∧ (∀ stored batch : List RecordData, (idsOf stored).Nodup →
      (idsOf (upsertActivitiesWithSummaryMatching stored batch).records).Nodup)
    ∧ (∀ (stored : List RecordData) (ids : List String), (idsOf stored).Nodup →
      (idsOf (deleteRecordsById stored ids).1).Nodup)
    ∧ (∀ (stored : List RecordData) (id : String), (idsOf stored).Nodup →
      (idsOf (deleteRecord stored id)).Nodup) := by
  refine ⟨?_, ?_, ?_, ?_, ?_, ?_, ?_⟩
  · intro l
    exact nodup_idsOf_of_goodMap (buildMap l) (goodMap_buildMap l)
  · intro existing new
    exact nodup_idsOf_of_goodMap (buildMap (existing ++ new))
      (goodMap_buildMap (existing ++ new))
  · intro stored batch h
    by_cases hb : batch = []
    · subst hb
      exact h
    · rw [upsertRecords_records_eq stored batch hb]
      exact nodup_idsOf_of_goodMap _
        (goodMap_foldUpsert _ batch (goodMap_buildMap stored))
  · intro stored batch h
    exact nodup_foldl_upsertKeyStep "opp_" "name" batch (stored, 0, 0) h
  · intro stored batch h
    exact nodup_foldl_upsertKeyStep "act_" "summary" batch (stored, 0, 0) h
  · intro stored ids h
    unfold deleteRecordsById
    by_cases hids : ids.isEmpty
    · rw [if_pos hids]
      exact h
    · rw [if_neg hids]
      exact nodup_filter_ids stored _ h
  · intro stored id h
    exact nodup_filter_ids stored _ h

/-- Witness for C3 at a concrete store with duplicate inputs: the invariant
holds after a deduplication, an upsert and a delete. -/
theorem store_ids_nodup_invariant_witness :
    (idsOf [RecordData.mk "a" [], RecordData.mk "b" []]).Nodup
    ∧ (idsOf (deduplicateById [RecordData.mk "a" [], RecordData.mk "a" [("x", OVal.num 1)]])).Nodup
    ∧ (idsOf (upsertRecords [RecordData.mk "a" [], RecordData.mk "b" []]
        [RecordData.mk "a" [("x", OVal.num 1)], RecordData.mk "c" []]).records).Nodup
    ∧ (idsOf (upsertOpportunitiesWithNameMatching
        [RecordData.mk "a" [], RecordData.mk "b" []]
        [RecordData.mk "opp_7" [("name", OVal.str "N")]]).records).Nodup
    ∧ (idsOf (deleteRecordsById [RecordData.mk "a" [], RecordData.mk "b" []] ["a"]).1).Nodup := by
  refine ⟨by decide, store_ids_nodup_invariant.1 _,
    store_ids_nodup_invariant.2.2.1 _ _ ?_,
    store_ids_nodup_invariant.2.2.2.1 _ _ ?_,
    store_ids_nodup_invariant.2.2.2.2.2.1 _ _ ?_⟩ <;> decide

/-! Claim C7: handling of the activity-creation wizard model. -/

/-- Counterexample to C7 as stated: a concrete create wizard web_save
interception event (model mail.activity.schedule, an addition with the
field data in the request arguments and an id-only response) is NOT ignored
by the pipeline: it produces a direct upsert of one activity record whose id
is built from the id found in the RPC response. -/
theorem wizard_event_not_ignored :
    handleActivityCreateWebSave "mail.activity.schedule"
      [OVal.arr [], OVal.obj [("summary", OVal.str "Call Bob"),
        ("date_deadline", OVal.str "2025-01-01"), ("activity_type_id", OVal.num 1)]]
      (OVal.arr [OVal.obj [("id", OVal.num 99)]])
    = some [Activity.mk "act_99" "todo" "Call Bob" "2025-01-01" "" "open"] := by
  decide

/-- C7 as amended: the activity-creation wizard model is not excluded from
direct upsert.  mapModelToDataType maps mail.activity.schedule to the
activities type (first conjunct), its create and web_save events are handled
exactly like events of the plain mail.activity model (second conjunct), and
the only create response the branch ignores is a bare numeric id (third
conjunct). -/
theorem wizard_model_handled_like_activity :
    mapModelToDataType "mail.activity.schedule" = some DataType.activities
    ∧ (∀ (args : List OVal) (result : OVal),
        handleActivityCreateWebSave "mail.activity.schedule" args result
          = handleActivityCreateWebSave "mail.activity" args result)
    ∧ (∀ (args : List OVal) (result : OVal) (n : Int),
        result = OVal.num n →
        handleActivityCreateWebSave "mail.activity.schedule" args result = none) := by
  refine ⟨rfl, ?_, ?_⟩
  · intro args result
    rfl
  · intro args result n h
    subst h
    rfl

/-- Witness for the amended C7: a bare numeric create response is dropped
while the same wizard and plain activity events coincide. -/
theorem wizard_model_handled_like_activity_witness :
    handleActivityCreateWebSave "mail.activity.schedule" [] (OVal.num 5) = none
    ∧ handleActivityCreateWebSave "mail.activity.schedule"
        [OVal.arr [], OVal.obj [("summary", OVal.str "S")]]
        (OVal.arr [OVal.obj [("id", OVal.num 7)]])
      = handleActivityCreateWebSave "mail.activity"
        [OVal.arr [], OVal.obj [("summary", OVal.str "S")]]
        (OVal.arr [OVal.obj [("id", OVal.num 7)]]) :=
  ⟨wizard_model_handled_like_activity.2.2 [] (OVal.num 5) 5 rfl,
   wizard_model_handled_like_activity.2.1 _ _⟩

end SwadesConnect
